import Mathlib

/-!
Shallow embedding of the clip allocation and sequencing engine of the
PMVGenPublic repository (src/main.py), together with proofs settling the
frozen specification claims.

Modelling conventions.
Python integers are modelled as `Int`; Python floats as `Rat` (an
ordering-exact idealisation: every claim below depends only on ordering
and on exactly representable values); Python lists as `List`;
dictionaries as association lists or as total functions evaluated only at
dictionary keys; `None`-returning helpers as `Option`.
Randomness is modelled by explicit draw streams: `rng.randint(a, b)` with
`a <= b` becomes `a + d % (b - a + 1)` for a stream element `d : Nat`,
which reaches exactly the values `a..b`; `random.shuffle` and
`random.sample(xs, len(xs))` become a draw-indexed selection shuffle,
which reaches exactly the permutations of the input; `random.uniform(a, b)`
becomes a stream rational clamped into `[a, b]`.  Universally quantifying
over the streams quantifies over every possible random draw.
-/

namespace PMVGen

/-- Python floor division `a // b` on integers. -/
def pyDiv (a b : Int) : Int := Int.fdiv a b

/-- Floor of a rational, in a form the kernel can evaluate. -/
def ratFloor (q : Rat) : Int := Int.fdiv q.num (q.den : Int)

/-- Sanity anchor: `ratFloor` is the mathematical floor. -/
theorem ratFloor_eq_floor (q : Rat) : ratFloor q = ⌊q⌋ := by
  rw [Rat.floor_def, ratFloor, Int.fdiv_eq_ediv _ (by positivity)]

/-- Ceiling of a rational, in a form the kernel can evaluate. -/
def ratCeil (q : Rat) : Int := -(ratFloor (-q))

/-- Sanity anchor: `ratCeil` is the mathematical ceiling. -/
theorem ratCeil_eq_ceil (q : Rat) : ratCeil q = ⌈q⌉ := by
  rw [ratCeil, ratFloor_eq_floor]; rfl

/-- Python `int(x)` applied to a float value: truncation toward zero. -/
def pyInt (q : Rat) : Int := if q < 0 then -(ratFloor (-q)) else ratFloor q

/-- Python `round(x)` applied to a float value: round half to even. -/
def pyRoundInt (q : Rat) : Int :=
  let f := ratFloor q
  let r := q - (f : Rat)
  if r < 1/2 then f
  else if 1/2 < r then f + 1
  else if f % 2 = 0 then f else f + 1

/-- Python `round(x, 6)`: round half to even at six decimal places. -/
def round6 (q : Rat) : Rat := (pyRoundInt (q * 1000000) : Rat) / 1000000

/-! ### Duration Allocator (`allocate_equalish`, src/main.py lines 3568-3623) -/

section Allocator

variable {S : Type} [DecidableEq S]

/-- The dictionary update `alloc[f] += 1`, on the functional model of the
allocation dictionary. -/
def bump (alloc : S → Int) (f : S) : S → Int :=
  fun s => if s = f then alloc f + 1 else alloc s

/-- One full pass of the leftover-redistribution `for` loop inside the
`while` loop of `allocate_equalish`: visit the sources of `order` in turn,
skip any source already at `min(per_max, duration)`, otherwise add one
second to it and take one second off the leftover, breaking out of the pass
as soon as the leftover reaches zero.  Returns the new allocation, the new
leftover, and the `progressed` flag. -/
def redistPass (dur : S → Int) (perMax : Int) :
    List S → (S → Int) → Int → (S → Int) × Int × Bool
  | [], alloc, leftover => (alloc, leftover, false)
  | f :: rest, alloc, leftover =>
    if min perMax (dur f) ≤ alloc f then
      redistPass dur perMax rest alloc leftover
    else if leftover - 1 ≤ 0 then (bump alloc f, leftover - 1, true)
    else
      ((redistPass dur perMax rest (bump alloc f) (leftover - 1)).1,
       (redistPass dur perMax rest (bump alloc f) (leftover - 1)).2.1, true)

/-- A pass never increases the leftover. -/
theorem redistPass_leftover_le (dur : S → Int) (perMax : Int) :
    ∀ (order : List S) (alloc : S → Int) (leftover : Int),
      (redistPass dur perMax order alloc leftover).2.1 ≤ leftover := by
  intro order
  induction order with
  | nil => intro alloc leftover; simp [redistPass]
  | cons f rest ih =>
    intro alloc leftover
    simp only [redistPass]
    by_cases hc : min perMax (dur f) ≤ alloc f
    · simpa [hc] using ih alloc leftover
    · by_cases hz : leftover - 1 ≤ 0
      · simp only [if_neg hc, if_pos hz]; omega
      · simp only [if_neg hc, if_neg hz]
        exact le_trans (ih (bump alloc f) (leftover - 1)) (by omega)

/-- A pass started with positive leftover leaves a nonnegative leftover. -/
theorem redistPass_leftover_nonneg (dur : S → Int) (perMax : Int) :
    ∀ (order : List S) (alloc : S → Int) (leftover : Int),
      0 < leftover → 0 ≤ (redistPass dur perMax order alloc leftover).2.1 := by
  intro order
  induction order with
  | nil => intro alloc leftover h; simpa [redistPass] using le_of_lt h
  | cons f rest ih =>
    intro alloc leftover h
    simp only [redistPass]
    by_cases hc : min perMax (dur f) ≤ alloc f
    · simpa [hc] using ih alloc leftover h
    · by_cases hz : leftover - 1 ≤ 0
      · simp only [if_neg hc, if_pos hz]; omega
      · simp only [if_neg hc, if_neg hz]
        exact ih (bump alloc f) (leftover - 1) (by omega)

/-- Key progress fact: a pass that progressed has strictly decreased the
leftover. -/
theorem redistPass_progress (dur : S → Int) (perMax : Int) :
    ∀ (order : List S) (alloc : S → Int) (leftover : Int),
      (redistPass dur perMax order alloc leftover).2.2 = true →
      (redistPass dur perMax order alloc leftover).2.1 < leftover := by
  intro order
  induction order with
  | nil => intro alloc leftover h; simp [redistPass] at h
  | cons f rest ih =>
    intro alloc leftover h
    simp only [redistPass] at h ⊢
    by_cases hc : min perMax (dur f) ≤ alloc f
    · rw [if_pos hc] at h ⊢; exact ih alloc leftover h
    · by_cases hz : leftover - 1 ≤ 0
      · rw [if_neg hc, if_pos hz]
        show leftover - 1 < leftover
        omega
      · rw [if_neg hc, if_neg hz]
        exact lt_of_le_of_lt
          (redistPass_leftover_le dur perMax rest (bump alloc f) (leftover - 1))
          (by omega)

/-- A pass that did not progress changed nothing. -/
theorem redistPass_noprogress (dur : S → Int) (perMax : Int) :
    ∀ (order : List S) (alloc : S → Int) (leftover : Int),
      (redistPass dur perMax order alloc leftover).2.2 = false →
      (redistPass dur perMax order alloc leftover).1 = alloc ∧
        (redistPass dur perMax order alloc leftover).2.1 = leftover := by
  intro order
  induction order with
  | nil => intro alloc leftover _; simp [redistPass]
  | cons f rest ih =>
    intro alloc leftover h
    simp only [redistPass] at h ⊢
    by_cases hc : min perMax (dur f) ≤ alloc f
    · rw [if_pos hc] at h ⊢; exact ih alloc leftover h
    · by_cases hz : leftover - 1 ≤ 0
      · rw [if_neg hc, if_pos hz] at h; simp at h
      · rw [if_neg hc, if_neg hz] at h; simp at h

/-- The redistribution `while` loop of `allocate_equalish`: run passes while
the leftover is positive, stopping after the first pass that makes no
progress.  Total by well-founded recursion on the leftover, justified by
`redistPass_progress` — this is the termination content of claim C8. -/
def redistLoop (dur : S → Int) (perMax : Int) (order : List S) :
    (S → Int) → Int → (S → Int)
  | alloc, leftover =>
    if h : 0 < leftover then
      if hp : (redistPass dur perMax order alloc leftover).2.2 = true then
        redistLoop dur perMax order
          (redistPass dur perMax order alloc leftover).1
          (redistPass dur perMax order alloc leftover).2.1
      else (redistPass dur perMax order alloc leftover).1
    else alloc
  termination_by alloc leftover => leftover.toNat
  decreasing_by
    exact (Int.toNat_lt_toNat h).mpr (redistPass_progress dur perMax order alloc leftover hp)

/-- Translation of `allocate_equalish` (src/main.py lines 3568-3623).
The returned allocation dictionary is modelled as a total function; only its
values at members of `files` are meaningful (the Python dictionary has
exactly the members of `files` as keys).  `per_min` is accepted and ignored
exactly as in the source ("только верхний предел, без нижнего"). -/
def allocate_equalish (target_sec : Int) (files : List S) (durations : S → Int)
    (per_min per_max : Int) : S → Int :=
  if files.length = 0 ∨ target_sec ≤ 0 then fun _ => 0
  else
    let total_dur := (files.map durations).sum
    if total_dur ≤ 0 then fun _ => 0
    else
      let ideal := max 1 (pyDiv target_sec files.length)
      let ideal_clamped := min per_max ideal
      let alloc : S → Int := fun f => min ideal_clamped (durations f)
      let max_total := min target_sec total_dur
      let current := (files.map alloc).sum
      let leftover := max_total - current
      if leftover ≤ 0 then alloc
      else
        let order := files.mergeSort (fun a b => decide (durations b ≤ durations a))
        redistLoop durations per_max order alloc leftover

/-- Bumping a member of a duplicate-free list adds exactly one to the sum of
the allocation over the list. -/
theorem sum_map_bump (alloc : S → Int) (f : S) :
    ∀ (files : List S), files.Nodup → f ∈ files →
      (files.map (bump alloc f)).sum = (files.map alloc).sum + 1 := by
  intro files
  induction files with
  | nil => intro _ h; cases h
  | cons g rest ih =>
    intro hnd hmem
    rcases List.mem_cons.mp hmem with h | h
    · subst h
      have hrest : ∀ s ∈ rest, bump alloc f s = alloc s := by
        intro s hs
        have : s ≠ f := fun he => (List.nodup_cons.mp hnd).1 (he ▸ hs)
        simp [bump, this]
      simp only [List.map_cons, List.sum_cons]
      rw [List.map_congr_left hrest]
      simp [bump]
      ring
    · have hne : g ≠ f := by
        intro he
        exact (List.nodup_cons.mp hnd).1 (he ▸ h)
      simp only [List.map_cons, List.sum_cons]
      rw [ih (List.nodup_cons.mp hnd).2 h]
      simp [bump, hne]
      ring

/-- A pass conserves allocation-plus-leftover, summed over the (duplicate
free) file list, as long as it only visits sources drawn from that list. -/
theorem redistPass_sum (dur : S → Int) (perMax : Int) (files : List S)
    (hnd : files.Nodup) :
    ∀ (order : List S), (∀ f ∈ order, f ∈ files) →
      ∀ (alloc : S → Int) (leftover : Int),
      (files.map (redistPass dur perMax order alloc leftover).1).sum
          + (redistPass dur perMax order alloc leftover).2.1
        = (files.map alloc).sum + leftover := by
  intro order
  induction order with
  | nil => intro _ alloc leftover; simp [redistPass]
  | cons f rest ih =>
    intro hsub alloc leftover
    have hf : f ∈ files := hsub f (List.mem_cons_self f rest)
    have hrest : ∀ g ∈ rest, g ∈ files := fun g hg => hsub g (List.mem_cons_of_mem f hg)
    simp only [redistPass]
    by_cases hc : min perMax (dur f) ≤ alloc f
    · rw [if_pos hc]; exact ih hrest alloc leftover
    · rw [if_neg hc]
      by_cases hz : leftover - 1 ≤ 0
      · rw [if_pos hz]
        simp only
        rw [sum_map_bump alloc f files hnd hf]
        ring
      · rw [if_neg hz]
        simp only
        rw [ih hrest (bump alloc f) (leftover - 1),
          sum_map_bump alloc f files hnd hf]
        ring

/-- A pass preserves the per-source cap `alloc[s] <= min(per_max, duration)`. -/
theorem redistPass_cap (dur : S → Int) (perMax : Int) :
    ∀ (order : List S) (alloc : S → Int) (leftover : Int),
      (∀ s, alloc s ≤ min perMax (dur s)) →
      ∀ s, (redistPass dur perMax order alloc leftover).1 s ≤ min perMax (dur s) := by
  intro order
  induction order with
  | nil => intro alloc leftover h s; simpa [redistPass] using h s
  | cons f rest ih =>
    intro alloc leftover h s
    simp only [redistPass]
    by_cases hc : min perMax (dur f) ≤ alloc f
    · rw [if_pos hc]; exact ih alloc leftover h s
    · have hb : ∀ t, bump alloc f t ≤ min perMax (dur t) := by
        intro t
        by_cases ht : t = f
        · subst ht
          simp only [bump, if_pos rfl]
          omega
        · simp only [bump, if_neg ht]
          exact h t
      rw [if_neg hc]
      by_cases hz : leftover - 1 ≤ 0
      · rw [if_pos hz]; exact hb s
      · rw [if_neg hz]; exact ih (bump alloc f) (leftover - 1) hb s

/-- The redistribution loop preserves the per-source cap.  (Stated with an
explicit bound on `leftover.toNat` to drive the induction.) -/
theorem redistLoop_cap_aux (dur : S → Int) (perMax : Int) (order : List S) :
    ∀ (n : Nat) (leftover : Int), leftover.toNat ≤ n →
      ∀ (alloc : S → Int), (∀ s, alloc s ≤ min perMax (dur s)) →
      ∀ s, redistLoop dur perMax order alloc leftover s ≤ min perMax (dur s) := by
  intro n
  induction n with
  | zero =>
    intro leftover hle alloc h s
    rw [redistLoop]
    have : ¬ 0 < leftover := by omega
    rw [dif_neg this]
    exact h s
  | succ n ih =>
    intro leftover hle alloc h s
    rw [redistLoop]
    split
    · split
      · next hpos hp =>
        have hdec : (redistPass dur perMax order alloc leftover).2.1 < leftover :=
          redistPass_progress dur perMax order alloc leftover hp
        exact ih _ (by omega)
          _ (redistPass_cap dur perMax order alloc leftover h) s
      · exact redistPass_cap dur perMax order alloc leftover h s
    · exact h s

/-- The redistribution loop preserves the per-source cap. -/
theorem redistLoop_cap (dur : S → Int) (perMax : Int) (order : List S)
    (leftover : Int) (alloc : S → Int)
    (h : ∀ s, alloc s ≤ min perMax (dur s)) :
    ∀ s, redistLoop dur perMax order alloc leftover s ≤ min perMax (dur s) :=
  redistLoop_cap_aux dur perMax order leftover.toNat leftover le_rfl alloc h

/-- The redistribution loop never allocates more than allocation-plus-leftover
over a duplicate-free file list, when it only visits sources from that list. -/
theorem redistLoop_sum_le_aux (dur : S → Int) (perMax : Int) (files : List S)
    (hnd : files.Nodup) (order : List S) (hsub : ∀ f ∈ order, f ∈ files) :
    ∀ (n : Nat) (leftover : Int), leftover.toNat ≤ n → 0 ≤ leftover →
      ∀ (alloc : S → Int),
      (files.map (redistLoop dur perMax order alloc leftover)).sum
        ≤ (files.map alloc).sum + leftover := by
  intro n
  induction n with
  | zero =>
    intro leftover hle hnn alloc
    rw [redistLoop]
    have : ¬ 0 < leftover := by omega
    rw [dif_neg this]
    omega
  | succ n ih =>
    intro leftover hle hnn alloc
    rw [redistLoop]
    split
    · next hpos =>
      have hsum := redistPass_sum dur perMax files hnd order hsub alloc leftover
      have hnn2 := redistPass_leftover_nonneg dur perMax order alloc leftover hpos
      split
      · next hp =>
        have hdec : (redistPass dur perMax order alloc leftover).2.1 < leftover :=
          redistPass_progress dur perMax order alloc leftover hp
        have := ih (redistPass dur perMax order alloc leftover).2.1
          (by omega) hnn2 (redistPass dur perMax order alloc leftover).1
        omega
      · omega
    · omega

end Allocator

/-! ### Claims C1 and C8 -/

/-- Claim C8: the leftover-redistribution loop of `allocate_equalish`
terminates.  Every full pass over the sources either strictly decreases the
leftover (when it progressed) or makes no progress, in which case it changed
nothing and the loop exits immediately returning the allocation unchanged.
Totality of `allocate_equalish` is embodied by `redistLoop` being accepted as
a well-founded recursion on exactly this measure. -/
theorem c8_redistribution_terminates {S : Type} [DecidableEq S]
    (dur : S → Int) (perMax : Int) (order : List S)
    (alloc : S → Int) (leftover : Int) :
    ((redistPass dur perMax order alloc leftover).2.2 = true →
      (redistPass dur perMax order alloc leftover).2.1 < leftover) ∧
    ((redistPass dur perMax order alloc leftover).2.2 = false →
      (redistPass dur perMax order alloc leftover).1 = alloc ∧
      (redistPass dur perMax order alloc leftover).2.1 = leftover ∧
      redistLoop dur perMax order alloc leftover = alloc) := by
  constructor
  · exact redistPass_progress dur perMax order alloc leftover
  · intro hp
    obtain ⟨ha, hl⟩ := redistPass_noprogress dur perMax order alloc leftover hp
    refine ⟨ha, hl, ?_⟩
    rw [redistLoop]
    by_cases hpos : 0 < leftover
    · rw [dif_pos hpos, dif_neg (by simp [hp])]
      exact ha
    · rw [dif_neg hpos]

/-- Witness for C8 at concrete inputs: a progressing pass strictly decreases
the leftover (left), and a non-progressing pass exits the loop with the
allocation unchanged (right). -/
theorem c8_redistribution_terminates_witness :
    (redistPass (fun _ : Nat => (10 : Int)) 10 [0] (fun _ => 0) 5).2.1 < 5 ∧
      redistLoop (fun _ : Nat => (0 : Int)) 0 [0] (fun _ => 0) 5 = fun _ => (0 : Int) :=
  ⟨(c8_redistribution_terminates (fun _ : Nat => (10 : Int)) 10 [0] (fun _ => 0) 5).1 rfl,
   ((c8_redistribution_terminates (fun _ : Nat => (0 : Int)) 0 [0] (fun _ => 0) 5).2 rfl).2.2⟩

/-- Claim C1 as frozen is false on the code: with target 1 second and two
10-second files, `allocate_equalish` gives each file `ideal = max(1, 1 // 2)
= 1` second and returns early (leftover is negative), so the total allocation
is 2 > min(1, 20) = 1. -/
theorem c1_counterexample :
    ¬ ((([0, 1] : List Nat).map
          (allocate_equalish 1 [0, 1] (fun _ => 10) 300 600)).sum
        ≤ min 1 ((([0, 1] : List Nat).map (fun _ => (10 : Int))).sum)) := by
  decide

/-- Claim C1, amended minimally: the per-source bound
`allocated[s] <= min(per_max, durations[s])` holds whenever durations and
`per_max` are nonnegative, and the conservation bound
`sum(allocated) <= min(target, sum(durations))` additionally needs
`target_sec >= len(files)` (otherwise the forced `ideal = max(1, ...)` floor
overshoots small targets, as `c1_counterexample` shows). -/
theorem c1_amended {S : Type} [DecidableEq S] (target_sec : Int) (files : List S)
    (durations : S → Int) (per_min per_max : Int)
    (hnd : files.Nodup) (hdur : ∀ s ∈ files, 0 ≤ durations s)
    (hpm : 0 ≤ per_max) (ht : (files.length : Int) ≤ target_sec) :
    (files.map (allocate_equalish target_sec files durations per_min per_max)).sum
        ≤ min target_sec (files.map durations).sum
      ∧ ∀ s ∈ files,
          allocate_equalish target_sec files durations per_min per_max s
            ≤ min per_max (durations s) := by
  by_cases hfe : files = []
  · subst hfe
    constructor
    · simp only [List.map_nil, List.sum_nil]
      exact le_min (by exact_mod_cast ht) le_rfl
    · intro s hs; cases hs
  · have hn1 : 1 ≤ (files.length : Int) := by
      have := List.length_pos.mpr hfe
      omega
    have htpos : 0 < target_sec := by omega
    have hcond : ¬ (files.length = 0 ∨ target_sec ≤ 0) := by
      push_neg
      exact ⟨fun h => hfe (List.length_eq_zero.mp h), htpos⟩
    simp only [allocate_equalish, if_neg hcond]
    by_cases htd : (files.map durations).sum ≤ 0
    · rw [if_pos htd]
      constructor
      · have htd0 : 0 ≤ (files.map durations).sum :=
          List.sum_nonneg (by
            intro x hx
            obtain ⟨s, hs, rfl⟩ := List.mem_map.mp hx
            exact hdur s hs)
        simp only [List.map_const', List.sum_replicate, smul_zero]
        exact le_min (le_of_lt htpos) (by omega)
      · intro s hs
        exact le_min hpm (hdur s hs)
    · rw [if_neg htd]
      -- abbreviations matching the source locals
      set ideal := max 1 (pyDiv target_sec files.length) with hideal
      set ic := min per_max ideal with hic
      set alloc0 : S → Int := fun f => min ic (durations f) with halloc0
      set max_total := min target_sec (files.map durations).sum with hmax_total
      set current := (files.map alloc0).sum with hcurrent
      -- the initial allocation respects both bounds
      have hcap0 : ∀ s, alloc0 s ≤ min per_max (durations s) := by
        intro s
        exact le_min (le_trans (min_le_left _ _) (min_le_left _ _)) (min_le_right _ _)
      have hfd : pyDiv target_sec files.length = target_sec / (files.length : Int) := by
        unfold pyDiv
        exact Int.fdiv_eq_ediv _ (by omega)
      have hfd1 : 1 ≤ pyDiv target_sec files.length := by
        rw [hfd]
        rw [Int.le_ediv_iff_mul_le (by omega)]
        omega
      have hideal_eq : ideal = target_sec / (files.length : Int) := by
        rw [hideal, ← hfd, max_eq_right hfd1]
      have hmul : (files.length : Int) * (target_sec / (files.length : Int)) ≤ target_sec := by
        have hmod := Int.emod_nonneg target_sec (b := (files.length : Int)) (by omega)
        have hdm := Int.ediv_add_emod target_sec (files.length : Int)
        omega
      have hcur_t : current ≤ target_sec := by
        have h1 : current ≤ (files.map (fun _ => ideal)).sum := by
          apply List.sum_le_sum
          intro s _
          exact le_trans (min_le_left _ _) (min_le_right _ _)
        have h2 : (files.map (fun _ => ideal)).sum = (files.length : Int) * ideal := by
          rw [List.map_const', List.sum_replicate, nsmul_eq_mul]
        rw [h2, hideal_eq] at h1
        exact le_trans h1 hmul
      have hcur_d : current ≤ (files.map durations).sum := by
        apply List.sum_le_sum
        intro s _
        exact min_le_right _ _
      have hcur_le : current ≤ max_total := le_min hcur_t hcur_d
      by_cases hlz : max_total - current ≤ 0
      · rw [if_pos hlz]
        exact ⟨hcur_le, fun s _ => hcap0 s⟩
      · rw [if_neg hlz]
        set order := files.mergeSort (fun a b => decide (durations b ≤ durations a)) with horder
        have hsub : ∀ f ∈ order, f ∈ files := by
          intro f hf
          exact (List.mergeSort_perm files _).mem_iff.mp hf
        constructor
        · have := redistLoop_sum_le_aux durations per_max files hnd order hsub
            (max_total - current).toNat (max_total - current) le_rfl (by omega) alloc0
          omega
        · intro s _
          exact redistLoop_cap durations per_max order (max_total - current) alloc0 hcap0 s

/-- Witness for the amended C1 at concrete inputs. -/
theorem c1_amended_witness :
    ((([0, 1] : List Nat).map (allocate_equalish 2 [0, 1] (fun _ => 10) 300 600)).sum
        ≤ min 2 ((([0, 1] : List Nat).map (fun _ => (10 : Int))).sum))
      ∧ ∀ s ∈ ([0, 1] : List Nat),
          allocate_equalish 2 [0, 1] (fun _ => 10) 300 600 s
            ≤ min 600 ((fun _ => (10 : Int)) s) :=
  c1_amended 2 [0, 1] (fun _ => 10) 300 600 (by decide) (by decide) (by decide) (by decide)

/-! ### Window Partitioner (`jittered_partition`, src/main.py lines 3639-3672) -/

/-- Model of `rng.randint(low, high)` for `low <= high`: `low + d % (high - low + 1)`
on the next draw-stream element `d`; it reaches exactly the values `low..high`. -/
def pyRandint (low high : Int) (d : Nat) : Int := low + (d : Int) % (high - low + 1)

/-- The `for _ in range(count)` loop of `jittered_partition`.  The parameter
`left` is NOT decremented between iterations — faithfully reproducing the
source, where the `left -= 1` statement is indented outside the loop body
(the subject of claim C2).  The `high < low` branch is kept although `high`
is defined as `max low ...` (it is dead in the source too). -/
def jpLoop (base jitter min_each left : Int) :
    Nat → Int → List Nat → List Int
  | 0, _, _ => []
  | k + 1, remain, ds =>
    if left = 1 then
      remain :: jpLoop base jitter min_each left k (remain - remain) ds
    else
      let low := max min_each (base - jitter)
      let upper_cap := remain - (left - 1) * min_each
      let high := max low (min (base + jitter) upper_cap)
      if high < low then
        (max min_each (min upper_cap low)) ::
          jpLoop base jitter min_each left k (remain - max min_each (min upper_cap low)) ds
      else
        (pyRandint low high (ds.headD 0)) ::
          jpLoop base jitter min_each left k (remain - pyRandint low high (ds.headD 0)) ds.tail

/-- Translation of `jittered_partition` (src/main.py lines 3639-3672).
`ds` models the draw stream of the freshly seeded `random.Random(RANDOM_SEED)`
(identical on every call because the source reseeds); quantifying over `ds`
covers every seed.  The float product `base * 0.3` is modelled as the exact
rational `base * 3/10`; at every concrete input evaluated below the two
coincide. -/
def jittered_partition (total_len0 count0 min_each0 : Int) (ds : List Nat) : List Int :=
  let total_len := max 0 total_len0
  let min_each := max 1 min_each0
  let max_count := if 0 < total_len then max 1 (pyDiv total_len min_each) else 1
  let count := max 1 (min count0 max_count)
  let base := if 0 < count then max min_each (pyDiv total_len count) else total_len
  let jitter := max 1 (pyInt ((base : Rat) * (3 / 10)))
  jpLoop base jitter min_each count count.toNat total_len ds

/-- Claim C2 fails on the code: at `total_len=10, count=2, min_each=1`, with
the all-zero draw stream (each randint takes the low end of its range), the
result is `[4, 4]`, summing to 8 rather than 10.  Because `left -= 1` sits
outside the loop, `left` stays at `count` and the "last part absorbs the
remainder" branch (`left == 1`) never runs for `count >= 2`. -/
theorem c2_failing_input :
    jittered_partition 10 2 1 [] = [4, 4] ∧
      (jittered_partition 10 2 1 []).sum ≠ 10 := by
  have h : jittered_partition 10 2 1 [] = [4, 4] := by
    norm_num [jittered_partition, jpLoop, pyDiv, pyInt, ratFloor, pyRandint,
      Int.fdiv_eq_ediv]
  exact ⟨h, by rw [h]; decide⟩

/-! ### Guard-Window Clipper and planners (src/main.py lines 3626-3755) -/

/-- Translation of `split_into_big_parts`: the result-building loop. -/
def sbpLoop (base rem : Int) : Nat → Nat → Int → List (Int × Int)
  | 0, _, _ => []
  | k + 1, i, cur =>
    (cur, base + (if (i : Int) < rem then 1 else 0)) ::
      sbpLoop base rem k (i + 1) (cur + base + (if (i : Int) < rem then 1 else 0))

/-- Translation of `split_into_big_parts` (src/main.py lines 3626-3636). -/
def split_into_big_parts (file_len parts0 : Int) : List (Int × Int) :=
  let parts := max 1 parts0
  let base := pyDiv file_len parts
  let rem := file_len - base * parts
  sbpLoop base rem parts.toNat 0 0

/-- Translation of `_clip_guard_limits` (src/main.py lines 3675-3683), with
the configured guards CLIP_HEAD_GUARD_SECONDS = CLIP_TAIL_GUARD_SECONDS = 60. -/
def clip_guard_limits (duration : Int) : Bool × Int × Int :=
  let head : Int := 60
  let tail : Int := 60
  if duration ≤ head + tail then (false, 0, duration)
  else
    let guard_start := min head duration
    let guard_end := max (guard_start + 1) (duration - tail)
    (true, guard_start, min guard_end duration)

/-- Stable sort by clip start, modelling Python `clips.sort(key=lambda x: x[0])`. -/
def sortByStart (clips : List (Int × Int)) : List (Int × Int) :=
  clips.mergeSort (fun a b => decide (a.1 ≤ b.1))

/-- Gap placement loop inside `_plan_for_file_default`: lay the clip lengths
out left to right with `base_gap` seconds between clips and one extra second
after each of the first `extra_left` clips. -/
def gapLoop : List Int → Int → Int → Int → List (Int × Int)
  | [], _, _, _ => []
  | L :: rest, cur, base_gap, extra_left =>
    (cur, L) :: gapLoop rest (cur + L + base_gap + (if 0 < extra_left then 1 else 0))
      base_gap (if 0 < extra_left then extra_left - 1 else extra_left)

/-- Per-window body of `_plan_for_file_default` (the `for idx, (wstart, wlen)
in enumerate(windows)` loop).  MIN_SMALL_CLIP_SECONDS = 3.  For `gaps = 0`
(reachable only for `small_per_big <= -1`, where Python would raise
ZeroDivisionError) the model totalises `slack // 0` as 0. -/
def windowClips (guard_active : Bool) (guard_start guard_end : Int)
    (base rem small_per_big : Int) (dsJP : List Nat) :
    List (Int × Int) → Nat → List (Int × Int)
  | [], _ => []
  | (wstart, wlen) :: rest, idx =>
    let wstart_eff := if guard_active then max wstart guard_start else wstart
    let wlen_eff :=
      if guard_active then max 0 (min (wstart + wlen) guard_end - max wstart guard_start)
      else wlen
    let alloc := min wlen_eff (base + (if (idx : Int) < rem then 1 else 0))
    if alloc ≤ 0 then
      windowClips guard_active guard_start guard_end base rem small_per_big dsJP rest (idx + 1)
    else
      let spb := min small_per_big (max 1 (pyDiv alloc 3))
      let lengths := jittered_partition alloc spb 3 dsJP
      let slack := max 0 (wlen_eff - lengths.sum)
      let gaps := spb + 1
      let base_gap := pyDiv slack gaps
      let extra := slack - base_gap * gaps
      gapLoop lengths (wstart_eff + base_gap + (if 0 < extra then 1 else 0))
          base_gap (max 0 (extra - 1))
        ++ windowClips guard_active guard_start guard_end base rem small_per_big dsJP
             rest (idx + 1)

/-- Translation of `_plan_for_file_default` (src/main.py lines 3686-3741).
`durQ` models the external `ffprobe_duration_seconds(file_path)` probe, and
`dsJP` the seeded draw stream of `jittered_partition` (the same stream for
every call, since the source reseeds on each call). -/
def plan_for_file_default (durQ : Rat) (file_alloc big_parts small_per_big : Int)
    (dsJP : List Nat) : List (Int × Int) :=
  let dur := pyInt durQ
  if dur ≤ 0 ∨ file_alloc ≤ 0 then []
  else
    let g := clip_guard_limits dur
    let windows := split_into_big_parts dur big_parts
    let base := pyDiv file_alloc (windows.length : Int)
    let rem := file_alloc - base * (windows.length : Int)
    let clips := sortByStart (windowClips g.1 g.2.1 g.2.2 base rem small_per_big dsJP windows 0)
    let total := (clips.map (fun c => c.2)).sum
    if file_alloc < total ∧ clips ≠ [] then
      match clips.getLast? with
      | some c => clips.dropLast ++ [(c.1, max 1 (c.2 - (total - file_alloc)))]
      | none => clips
    else clips

/-- Python `heapq.nlargest(n, xs)` on pairs compared lexicographically:
equivalent (per its documentation) to the stable descending sort followed by
`take n`. -/
def nlargestLex (n : Nat) (xs : List (Rat × Rat)) : List (Rat × Rat) :=
  (xs.mergeSort (fun a b => decide (b.1 < a.1 ∨ (b.1 = a.1 ∧ b.2 ≤ a.2)))).take n

/-- Python `heapq.nlargest(n, xs, key=lambda x: x[1])`: stable descending
sort on the second component, then `take n`. -/
def nlargestBySnd (n : Nat) (xs : List (Rat × Rat)) : List (Rat × Rat) :=
  (xs.mergeSort (fun a b => decide (b.2 ≤ a.2))).take n

/-- The minute-bucket loop of `_select_audio_poi_points`: for each nonempty
bucket draw `want = randint(1, 3)` (POI_POINTS_PER_MIN_RANGE = (1, 3)),
clamp it to the bucket size, keep the `want` top-amplitude `(amp, ts)`
samples and collect them as `(timestamp, amplitude)` points.  A draw is
consumed only for nonempty buckets, as in the source. -/
def poiMinuteLoop (bucket : Int → List (Rat × Rat)) :
    Nat → Int → List Nat → List (Rat × Rat)
  | 0, _, _ => []
  | k + 1, minute, ds =>
    if bucket minute = [] then poiMinuteLoop bucket k (minute + 1) ds
    else
      let want := max 1 (min (pyRandint 1 3 (ds.headD 0)) ((bucket minute).length : Int))
      (nlargestLex want.toNat (bucket minute)).map (fun p => (p.2, p.1))
        ++ poiMinuteLoop bucket k (minute + 1) ds.tail

/-- Translation of `_select_audio_poi_points` (src/main.py lines 3810-3839);
POI_MAX_POINTS = 120.  `samples0` models the probe's `(timestamp, amplitude)`
list; the per-minute dictionary is modelled as the bucket filter (appends in
sample order, as `setdefault(...).append` produces). -/
def select_audio_poi_points (duration : Rat) (samples0 : List (Rat × Rat))
    (ds : List Nat) : List (Rat × Rat) :=
  if samples0 = [] ∨ duration ≤ 0 then []
  else
    let samples := samples0.mergeSort (fun a b => decide (a.1 ≤ b.1))
    let minutes : Int := max 1 (ratCeil (duration / 60))
    let bucket : Int → List (Rat × Rat) := fun i =>
      (samples.filter (fun p => decide (min (minutes - 1) (ratFloor (p.1 / 60)) = i))).map
        (fun p => (p.2, p.1))
    let points := poiMinuteLoop bucket minutes.toNat 0 ds
    let points := if points = [] then nlargestBySnd (min samples.length 120) samples else points
    points.mergeSort (fun a b => decide (a.1 ≤ b.1))

/-- The per-point clip construction loop of `plan_for_file_poi`: jitter the
point by a uniform offset in `[-2, 2]` (POI_SPREAD_SECONDS = 2.0), center a
clip of the assigned length there, and clamp it into the guard window (or
into `[0, duration - length]` when guarding is inactive). -/
def poiClipLoop (guard_active : Bool) (guard_start guard_end duration_seconds : Int) :
    List ((Rat × Rat) × Int) → List Rat → List (Int × Int)
  | [], _ => []
  | ((ts, _), L) :: rest, du =>
    let center := ts + max (-2 : Rat) (min 2 (du.headD 0))
    let start0 := max 0 (pyRoundInt (center - (L : Rat) / 2))
    (if guard_active then
        let L2 := min L (max 1 (guard_end - guard_start))
        let max_start := max guard_start (guard_end - L2)
        (max guard_start (min start0 max_start), L2)
      else
        let max_start := max 0 (duration_seconds - L)
        (if max_start < start0 then max_start else start0, L))
      :: poiClipLoop guard_active guard_start guard_end duration_seconds rest du.tail

/-- Translation of `plan_for_file_poi` (src/main.py lines 3841-3872).
`durQ` and `samples` model the external duration and audio-energy probes;
`dsSel` the global RNG draws used by the selector, `dsU` the uniform jitter
draws, `dsJP` the seeded `jittered_partition` stream. -/
def plan_for_file_poi (durQ : Rat) (samples : List (Rat × Rat)) (file_alloc0 : Int)
    (dsSel : List Nat) (dsU : List Rat) (dsJP : List Nat) : List (Int × Int) :=
  if durQ ≤ 0 ∨ file_alloc0 ≤ 0 then []
  else
    let duration_seconds := max 1 (pyInt durQ)
    let file_alloc := min file_alloc0 duration_seconds
    if file_alloc ≤ 0 then []
    else
      let poi0 := select_audio_poi_points durQ samples dsSel
      if poi0 = [] then []
      else
        let max_points := max 1 (min (poi0.length : Int) (max 1 (pyDiv file_alloc 3)))
        let poi1 :=
          if max_points < (poi0.length : Int) then nlargestBySnd max_points.toNat poi0
          else poi0
        let poi := poi1.mergeSort (fun a b => decide (a.1 ≤ b.1))
        let per_clip_min := min 3 (max 1 (pyDiv file_alloc (poi.length : Int)))
        let lengths := jittered_partition file_alloc (poi.length : Int) per_clip_min dsJP
        let g := clip_guard_limits duration_seconds
        sortByStart (poiClipLoop g.1 g.2.1 g.2.2 duration_seconds (poi.zip lengths) dsU)

/-- Translation of `plan_for_file` (src/main.py lines 3744-3755). -/
def plan_for_file (durQ : Rat) (samples : List (Rat × Rat))
    (file_alloc big_parts small_per_big : Int) (algo_key : String)
    (dsSel : List Nat) (dsU : List Rat) (dsJP : List Nat) : List (Int × Int) :=
  if algo_key = "poi" then
    let clips := plan_for_file_poi durQ samples file_alloc dsSel dsU dsJP
    if clips ≠ [] then clips
    else plan_for_file_default durQ file_alloc big_parts small_per_big dsJP
  else plan_for_file_default durQ file_alloc big_parts small_per_big dsJP

/-- Claim C7: when the audio-energy probe detects zero samples, POI analysis
yields zero usable points and `plan_for_file_poi` returns the empty list; and
`plan_for_file` with `algo_key = "poi"` then returns exactly the Default
Planner result for the same source and allocation — the fallback is
mandatory. -/
theorem c7_poi_fallback (durQ : Rat) (file_alloc big_parts small_per_big : Int)
    (dsSel : List Nat) (dsU : List Rat) (dsJP : List Nat) :
    plan_for_file_poi durQ [] file_alloc dsSel dsU dsJP = [] ∧
      plan_for_file durQ [] file_alloc big_parts small_per_big "poi" dsSel dsU dsJP
        = plan_for_file_default durQ file_alloc big_parts small_per_big dsJP := by
  have hsel : select_audio_poi_points durQ [] dsSel = [] := by
    unfold select_audio_poi_points
    rw [if_pos (Or.inl rfl)]
  have hpoi : plan_for_file_poi durQ [] file_alloc dsSel dsU dsJP = [] := by
    unfold plan_for_file_poi
    by_cases h1 : durQ ≤ 0 ∨ file_alloc ≤ 0
    · rw [if_pos h1]
    · rw [if_neg h1]
      dsimp only
      rw [hsel]
      simp
  refine ⟨hpoi, ?_⟩
  unfold plan_for_file
  rw [if_pos rfl]
  dsimp only
  rw [hpoi]
  simp

/-! ### Sequencing Algorithms (src/main.py lines 3875-3982) -/

section Sequencing

variable {S : Type}

/-- A planned clip `(start, duration)`. -/
abbrev Clip := Int × Int

/-- `ClipQueue`: the per-source clip-list dictionary, modelled as an
association list in dictionary (insertion) order.  A Python dict has
duplicate-free keys; theorems that depend on key-based access assume
`(q.map Prod.fst).Nodup`. -/
abbrev ClipQueue (S : Type) := List (S × List Clip)

/-- `ClipSequence`: the final cut order. -/
abbrev ClipSeq (S : Type) := List (S × Clip)

/-- Translation of `_clone_clip_queue` (src/main.py lines 3887-3888): copy
each clip list (`clips[:]`) and drop sources whose list is empty. -/
def clone_clip_queue (q : ClipQueue S) : ClipQueue S :=
  q.filter (fun e => !e.2.isEmpty)

/-- One iteration of the `while queues:` loop of `_sequence_carousel` (the
`for path in list(queues.keys())` pass): pop and emit the head clip of each
source, dropping a source when its list is or becomes empty.  Returns the
emitted clips and the remaining queue. -/
def seqRound : ClipQueue S → ClipSeq S × ClipQueue S
  | [] => ([], [])
  | (_, []) :: rest => seqRound rest
  | (s, c :: cs) :: rest =>
    ((s, c) :: (seqRound rest).1,
      if cs.isEmpty then (seqRound rest).2 else (s, cs) :: (seqRound rest).2)

/-- Termination measure for the round-robin drain: total clips plus one per
live source. -/
def queueMeasure (q : ClipQueue S) : Nat := (q.map (fun e => e.2.length + 1)).sum

theorem queueMeasure_nil : queueMeasure ([] : ClipQueue S) = 0 := rfl

theorem queueMeasure_cons (e : S × List Clip) (q : ClipQueue S) :
    queueMeasure (e :: q) = e.2.length + 1 + queueMeasure q := by
  simp [queueMeasure]

/-- A round never increases the measure. -/
theorem seqRound_measure_le (q : ClipQueue S) :
    queueMeasure (seqRound q).2 ≤ queueMeasure q := by
  induction q with
  | nil => simp [seqRound, queueMeasure]
  | cons e rest ih =>
    obtain ⟨s, l⟩ := e
    cases l with
    | nil =>
      show queueMeasure (seqRound rest).2 ≤ queueMeasure ((s, []) :: rest)
      rw [queueMeasure_cons]
      omega
    | cons c cs =>
      show queueMeasure
          (if cs.isEmpty then (seqRound rest).2 else (s, cs) :: (seqRound rest).2)
        ≤ queueMeasure ((s, c :: cs) :: rest)
      rw [queueMeasure_cons]
      by_cases hcs : cs.isEmpty
      · rw [if_pos hcs]
        simp only [List.length_cons]
        omega
      · rw [if_neg hcs, queueMeasure_cons]
        simp only [List.length_cons]
        omega

/-- A round on a nonempty queue strictly decreases the measure. -/
theorem seqRound_measure_lt (q : ClipQueue S) (hq : q ≠ []) :
    queueMeasure (seqRound q).2 < queueMeasure q := by
  induction q with
  | nil => exact absurd rfl hq
  | cons e rest ih =>
    obtain ⟨s, l⟩ := e
    have hle := seqRound_measure_le (S := S) rest
    cases l with
    | nil =>
      show queueMeasure (seqRound rest).2 < queueMeasure ((s, []) :: rest)
      rw [queueMeasure_cons]
      omega
    | cons c cs =>
      show queueMeasure
          (if cs.isEmpty then (seqRound rest).2 else (s, cs) :: (seqRound rest).2)
        < queueMeasure ((s, c :: cs) :: rest)
      rw [queueMeasure_cons]
      by_cases hcs : cs.isEmpty
      · rw [if_pos hcs]
        simp only [List.length_cons]
        omega
      · rw [if_neg hcs, queueMeasure_cons]
        simp only [List.length_cons]
        omega

/-- The `while queues:` drain loop shared by `_sequence_carousel` and the
inner wave loop of `_sequence_group_waves`. -/
def seqRounds (q : ClipQueue S) : ClipSeq S :=
  if h : q.isEmpty then []
  else (seqRound q).1 ++ seqRounds (seqRound q).2
  termination_by queueMeasure q
  decreasing_by
    exact seqRound_measure_lt q (by simpa [List.isEmpty_iff] using h)

/-- Translation of `_sequence_carousel` (src/main.py lines 3891-3904). -/
def sequence_carousel (per_file : ClipQueue S) : ClipSeq S :=
  seqRounds (clone_clip_queue per_file)

/-- Stable sort of a clip list by start time, modelling Python
`sorted(clips, key=lambda x: x[0])`. -/
def sortClips (clips : List Clip) : List Clip :=
  clips.mergeSort (fun a b => decide (a.1 ≤ b.1))

/-- Translation of `_sequence_poi` (src/main.py lines 3968-3973): no
reordering across time — each source's clips sorted by start, in dictionary
order. -/
def sequence_poi (per_file : ClipQueue S) : ClipSeq S :=
  per_file.flatMap (fun e => (sortClips e.2).map (fun c => (e.1, c)))

/-- Translation of `_sequence_strata` (src/main.py lines 3976-3982): all
clips of the first source, then the next, etc.  The body is line-for-line
the same as `_sequence_poi`. -/
def sequence_strata (per_file : ClipQueue S) : ClipSeq S :=
  per_file.flatMap (fun e => (sortClips e.2).map (fun c => (e.1, c)))

/-- Draw-indexed selection shuffle modelling `random.shuffle` and
`random.sample(xs, len(xs))`: each draw selects which remaining element comes
next; every permutation of the input is produced by some draw stream. -/
def shuffleDraws : List α → List Nat → List α
  | [], _ => []
  | x :: xs, ds =>
    (x :: xs).get ⟨ds.headD 0 % (x :: xs).length, Nat.mod_lt _ (Nat.succ_pos _)⟩ ::
      shuffleDraws ((x :: xs).eraseIdx (ds.headD 0 % (x :: xs).length)) ds.tail
  termination_by xs _ => xs.length
  decreasing_by
    simp only [List.length_eraseIdx, List.length_cons]
    have h : ds.headD 0 % (xs.length + 1) < xs.length + 1 :=
      Nat.mod_lt _ (Nat.succ_pos _)
    rw [if_pos h]
    omega

/-- The wave group size: `1` for a lone remaining source, otherwise
`randint(2, min(4, remaining))`. -/
def groupSize (remaining d : Nat) : Nat :=
  if remaining = 1 then 1
  else (pyRandint 2 (min 4 (remaining : Int)) d).toNat

theorem groupSize_pos (remaining d : Nat) (h : 0 < remaining) :
    0 < groupSize remaining d := by
  unfold groupSize
  split
  · omega
  · next hne =>
    unfold pyRandint
    have hrem : 2 ≤ remaining := by omega
    have h2 : (2 : Int) ≤ min 4 (remaining : Int) := by
      have : (2 : Int) ≤ (remaining : Int) := by exact_mod_cast hrem
      omega
    have hnz : (min 4 (remaining : Int) - 2 + 1) ≠ 0 := by omega
    have := Int.emod_nonneg (d : Int) hnz
    omega

/-- The wave-grouping loop of `_sequence_group_waves`: split the shuffled
source list into consecutive groups of `randint(2, min(4, remaining))`
sources (a final lone source forms its own group).  A draw is consumed per
formed group; the lone-source case consumes none in the source, but there the
recursion immediately bottoms out, so threading the tail is equivalent. -/
def groupSplit : List α → List Nat → List (List α)
  | [], _ => []
  | x :: xs, ds =>
    ((x :: xs).take (groupSize (x :: xs).length (ds.headD 0))) ::
      groupSplit ((x :: xs).drop (groupSize (x :: xs).length (ds.headD 0))) ds.tail
  termination_by xs _ => xs.length
  decreasing_by
    simp only [List.length_drop, List.length_cons]
    have := groupSize_pos (x :: xs).length (ds.headD 0) (Nat.succ_pos _)
    simp only [List.length_cons] at this
    omega

/-- Total clip count of a queue (`total = sum(cnt for _, cnt in candidates)`;
empty lists contribute zero, so filtering out the non-candidates first is
immaterial). -/
def clipCount (q : ClipQueue S) : Nat := (q.map (fun e => e.2.length)).sum

theorem clipCount_nil : clipCount ([] : ClipQueue S) = 0 := rfl

theorem clipCount_cons (e : S × List Clip) (q : ClipQueue S) :
    clipCount (e :: q) = e.2.length + clipCount q := by
  simp [clipCount]

theorem clipCount_append (q1 q2 : ClipQueue S) :
    clipCount (q1 ++ q2) = clipCount q1 + clipCount q2 := by
  simp [clipCount]

/-- A queue with a non-drained source has positive clip count. -/
theorem clipCount_pos_of_not_all (q : ClipQueue S)
    (h : ¬ q.all (fun e => e.2.isEmpty)) : 0 < clipCount q := by
  rw [List.all_eq_true] at h
  push_neg at h
  obtain ⟨e, he, hne⟩ := h
  have h1 : e.2.length ≤ clipCount q :=
    List.single_le_sum (fun x _ => Nat.zero_le x) _ (List.mem_map_of_mem _ he)
  have h2 : e.2 ≠ [] := by simpa [List.isEmpty_iff] using hne
  have := List.length_pos.mpr h2
  omega

/-- The cumulative weighted-choice walk of `_sequence_burst_shuffle`: the
position of the first entry with positive weight whose cumulative weight
reaches `pick`; zero-weight entries are not candidates and are skipped,
exactly as the source's candidate list omits them.  For `pick` outside
`[1, total]` — unreachable, since `pick = randint(1, total)` — the position
falls off the end of the list. -/
def choosePos (w : α → Nat) : List α → Int → Nat
  | [], _ => 0
  | e :: rest, pick =>
    if 0 < w e ∧ pick ≤ (w e : Int) then 0
    else choosePos w rest (pick - (w e : Int)) + 1

/-- For `pick` within `[1, total]`, the weighted walk lands on an entry with
positive weight. -/
theorem choosePos_spec (w : α → Nat) :
    ∀ (q : List α) (pick : Int), 1 ≤ pick → pick ≤ ((q.map w).sum : Int) →
      ∃ e, q.get? (choosePos w q pick) = some e ∧ 0 < w e := by
  intro q
  induction q with
  | nil => intro pick h1 h2; simp at h2; omega
  | cons e rest ih =>
    intro pick h1 h2
    by_cases hc : 0 < w e ∧ pick ≤ (w e : Int)
    · exact ⟨e, by simp [choosePos, if_pos hc], hc.1⟩
    · have hrec1 : 1 ≤ pick - (w e : Int) := by
        rcases Nat.eq_zero_or_pos (w e) with hw | hw
        · omega
        · have hnp : ¬ pick ≤ (w e : Int) := fun hp => hc ⟨hw, hp⟩
          omega
      have hrec2 : pick - (w e : Int) ≤ ((rest.map w).sum : Int) := by
        have hsum : ((e :: rest).map w).sum = w e + (rest.map w).sum := by simp
        rw [hsum, Nat.cast_add] at h2
        omega
      obtain ⟨e1, he1, hw1⟩ := ih (pick - (w e : Int)) hrec1 hrec2
      refine ⟨e1, ?_, hw1⟩
      simp only [choosePos, if_neg hc]
      simpa using he1

/-- Removing the first `k >= 1` clips of the entry at position `j` (and the
entry itself when it empties) strictly decreases the clip count. -/
theorem clipCount_step_lt (q : ClipQueue S) (j : Nat) (s : S) (l : List Clip)
    (hj : q.get? j = some (s, l)) (k : Nat) (hk : 1 ≤ k) (hkl : k ≤ l.length) :
    clipCount
        (if (l.drop k).isEmpty then q.eraseIdx j else q.set j (s, l.drop k))
      < clipCount q := by
  obtain ⟨hlen, hget⟩ := List.get?_eq_some.mp hj
  have hq : q.take j ++ (s, l) :: q.drop (j + 1) = q := by
    rw [← hget, List.get_cons_drop, List.take_append_drop]
  have hcq : clipCount q
      = clipCount (q.take j) + (l.length + clipCount (q.drop (j + 1))) := by
    conv_lhs => rw [← hq]
    rw [clipCount_append, clipCount_cons]
  by_cases hd : (l.drop k).isEmpty
  · rw [if_pos hd, List.eraseIdx_eq_take_drop_succ, clipCount_append, hcq]
    omega
  · rw [if_neg hd, List.set_eq_take_cons_drop _ hlen, clipCount_append,
      clipCount_cons, hcq]
    simp only [List.length_drop]
    omega

/-- The main loop of `_sequence_burst_shuffle`: pick a source weighted by its
remaining clip count (`pick = randint(1, max(1, total))`), emit a burst of
`randint(1, max(1, min(3, len(chosen))))` of its next clips (the pop loop
breaks early if the source empties, hence the `min` with the length), drop
the source once empty, and repeat until all are drained.  Each iteration
consumes two draws.  The dictionary access `queues[chosen]` is modelled by
`Option.getD`: its default is unreachable, since the weighted pick provably
lands on a held position (`burstsPick_spec`). -/
def burstsGo [Inhabited S] : ClipQueue S → List Nat → ClipSeq S
  | q, ds =>
    if hq : q.all (fun e => e.2.isEmpty) then []
    else
      let pick : Int := 1 + (ds.headD 0 : Int) % (max 1 (clipCount q : Int))
      let j := choosePos (fun e => e.2.length) q pick
      let s := ((q.get? j).getD default).1
      let l := ((q.get? j).getD default).2
      let burst := 1 + (ds.tail.headD 0 : Int) % (max 1 (min 3 (l.length : Int)))
      let k := min burst.toNat l.length
      (l.take k).map (fun c => (s, c)) ++
        burstsGo (if (l.drop k).isEmpty then q.eraseIdx j else q.set j (s, l.drop k))
          ds.tail.tail
  termination_by q ds => clipCount q
  decreasing_by
    have htot : 0 < clipCount q := clipCount_pos_of_not_all q hq
    have hp1 : (1 : Int) ≤ 1 + (ds.headD 0 : Int) % (max 1 (clipCount q : Int)) := by
      have := Int.emod_nonneg (ds.headD 0 : Int)
        (by omega : (max 1 (clipCount q : Int)) ≠ 0)
      omega
    have hp2 : 1 + (ds.headD 0 : Int) % (max 1 (clipCount q : Int))
        ≤ (clipCount q : Int) := by
      have h1 := Int.emod_lt_of_pos (ds.headD 0 : Int)
        (by omega : (0 : Int) < max 1 (clipCount q : Int))
      omega
    have hp2' : 1 + (ds.headD 0 : Int) % (max 1 (clipCount q : Int))
        ≤ ((((q.map (fun e : S × List Clip => e.2.length)).sum : Nat)) : Int) := hp2
    obtain ⟨e1, he1, hw1⟩ :=
      choosePos_spec (fun e : S × List Clip => e.2.length) q _ hp1 hp2'
    rw [he1]
    simp only [Option.getD_some]
    have hmod1 := Int.emod_nonneg (ds.tail.headD 0 : Int)
      (by omega : (max 1 (min 3 (e1.2.length : Int))) ≠ 0)
    refine clipCount_step_lt q _ e1.1 e1.2 (by rw [he1]) _ ?_ ?_
    · omega
    · omega

/-- Translation of `_sequence_burst_shuffle` (src/main.py lines 3941-3965). -/
def sequence_burst_shuffle [Inhabited S] (per_file : ClipQueue S) (ds : List Nat) : ClipSeq S :=
  burstsGo (clone_clip_queue per_file) ds

/-- Translation of `_sequence_group_waves` (src/main.py lines 3907-3938):
shuffle the cloned queue's sources, split them into waves, round-robin each
wave to exhaustion with the same drain loop as the carousel.  The trailing
`if queues:` carousel fallback of the source is unreachable (the grouping
loop consumes every source) and contributes nothing. -/
def sequence_group_waves (per_file : ClipQueue S) (ds1 ds2 : List Nat) : ClipSeq S :=
  (groupSplit (shuffleDraws (clone_clip_queue per_file) ds1) ds2).flatMap seqRounds

end Sequencing

/-! ### Claims C9 and C4 -/

/-- Claim C9: `_sequence_poi` and `_sequence_strata` are extensionally equal
— their bodies are the same code, so they return the identical sequence on
every queue, although the spec presents them as distinct strategies. -/
theorem c9_poi_strata_equal {S : Type} (per_file : ClipQueue S) :
    sequence_poi per_file = sequence_strata per_file := rfl

section SequencingMultiset

variable {S : Type}

/-- The multiset of `(source, clip)` pairs held by a queue: the union of all
per-source clip lists, each clip tagged with its source. -/
def queueMultiset (q : ClipQueue S) : Multiset (S × Clip) :=
  ((q.flatMap (fun e => e.2.map (fun c => (e.1, c)))) : List (S × Clip))

theorem queueMultiset_nil : queueMultiset ([] : ClipQueue S) = 0 := rfl

theorem queueMultiset_cons (e : S × List Clip) (q : ClipQueue S) :
    queueMultiset (e :: q)
      = (↑(e.2.map (fun c => (e.1, c))) : Multiset (S × Clip)) + queueMultiset q := by
  simp [queueMultiset]

theorem queueMultiset_append (q1 q2 : ClipQueue S) :
    queueMultiset (q1 ++ q2) = queueMultiset q1 + queueMultiset q2 := by
  simp [queueMultiset]

/-- Queue permutations carry the same clip multiset. -/
theorem queueMultiset_perm {q q' : ClipQueue S} (h : q.Perm q') :
    queueMultiset q = queueMultiset q' :=
  Multiset.coe_eq_coe.mpr (h.flatMap_right _)

theorem coe_append_multiset (l1 l2 : List α) :
    ((l1 ++ l2 : List α) : Multiset α) = ↑l1 + ↑l2 := rfl

theorem coe_cons_multiset (a : α) (l : List α) :
    ((a :: l : List α) : Multiset α) = a ::ₘ ↑l := rfl

/-- Cloning (dropping empty sources) does not change the clip multiset. -/
theorem clone_multiset (q : ClipQueue S) :
    queueMultiset (clone_clip_queue q) = queueMultiset q := by
  induction q with
  | nil => rfl
  | cons e rest ih =>
    by_cases he : e.2.isEmpty
    · have h2 : e.2 = [] := by simpa [List.isEmpty_iff] using he
      have hfil : clone_clip_queue (e :: rest) = clone_clip_queue rest := by
        simp [clone_clip_queue, List.filter_cons, he]
      rw [hfil, ih, queueMultiset_cons, h2]
      simp
    · have hfil : clone_clip_queue (e :: rest) = e :: clone_clip_queue rest := by
        simp [clone_clip_queue, List.filter_cons, he]
      rw [hfil, queueMultiset_cons, queueMultiset_cons, ih]

/-- One round moves exactly the emitted clips out of the queue. -/
theorem seqRound_multiset (q : ClipQueue S) :
    (↑(seqRound q).1 : Multiset (S × Clip)) + queueMultiset (seqRound q).2
      = queueMultiset q := by
  induction q with
  | nil => rfl
  | cons e rest ih =>
    obtain ⟨s, l⟩ := e
    cases l with
    | nil =>
      show (↑(seqRound rest).1 : Multiset (S × Clip)) + queueMultiset (seqRound rest).2
        = queueMultiset ((s, []) :: rest)
      rw [queueMultiset_cons, ih]
      simp
    | cons c cs =>
      show (↑((s, c) :: (seqRound rest).1) : Multiset (S × Clip))
          + queueMultiset
              (if cs.isEmpty then (seqRound rest).2 else (s, cs) :: (seqRound rest).2)
        = queueMultiset ((s, (c :: cs)) :: rest)
      rw [queueMultiset_cons, ← ih]
      by_cases hcs : cs.isEmpty
      · have h2 : cs = [] := by simpa [List.isEmpty_iff] using hcs
        subst h2
        rw [if_pos hcs]
        simp only [coe_cons_multiset, List.map_cons, List.map_nil,
          ← Multiset.singleton_add, Multiset.coe_nil]
        abel
      · rw [if_neg hcs, queueMultiset_cons]
        simp only [coe_cons_multiset, List.map_cons, ← Multiset.singleton_add]
        abel

/-- A queue whose sources are all drained holds the empty multiset. -/
theorem queueMultiset_eq_zero_of_all_empty (q : ClipQueue S)
    (h : q.all (fun e => e.2.isEmpty)) : queueMultiset q = 0 := by
  induction q with
  | nil => rfl
  | cons e rest ih =>
    simp only [List.all_cons, Bool.and_eq_true] at h
    have h2 : e.2 = [] := by simpa [List.isEmpty_iff] using h.1
    rw [queueMultiset_cons, h2, ih h.2]
    simp

/-- The drain loop emits exactly the queue's multiset. -/
theorem seqRounds_multiset_aux :
    ∀ (n : Nat) (q : ClipQueue S), queueMeasure q ≤ n →
      (↑(seqRounds q) : Multiset (S × Clip)) = queueMultiset q := by
  intro n
  induction n with
  | zero =>
    intro q hle
    have hq : q = [] := by
      cases q with
      | nil => rfl
      | cons e rest => rw [queueMeasure_cons] at hle; omega
    subst hq
    rw [seqRounds]
    rfl
  | succ n ih =>
    intro q hle
    rw [seqRounds]
    by_cases hq : q.isEmpty
    · rw [dif_pos hq]
      have : q = [] := by simpa [List.isEmpty_iff] using hq
      subst this
      rfl
    · rw [dif_neg hq]
      have hne : q ≠ [] := by simpa [List.isEmpty_iff] using hq
      have hlt := seqRound_measure_lt q hne
      have := ih (seqRound q).2 (by omega)
      show (↑((seqRound q).1 ++ seqRounds (seqRound q).2) : Multiset (S × Clip))
        = queueMultiset q
      have hco : (↑((seqRound q).1 ++ seqRounds (seqRound q).2) : Multiset (S × Clip))
          = (↑(seqRound q).1 : Multiset (S × Clip)) + ↑(seqRounds (seqRound q).2) := rfl
      rw [hco, this, seqRound_multiset]

theorem seqRounds_multiset (q : ClipQueue S) :
    (↑(seqRounds q) : Multiset (S × Clip)) = queueMultiset q :=
  seqRounds_multiset_aux (queueMeasure q) q le_rfl

/-- The head-plus-remainder decomposition at an index is a permutation. -/
theorem get_cons_eraseIdx_perm (l : List α) (i : Fin l.length) :
    (l.get i :: l.eraseIdx i).Perm l := by
  conv_rhs => rw [← List.take_append_drop (i : Nat) l, ← List.get_cons_drop l i]
  rw [List.eraseIdx_eq_take_drop_succ]
  exact List.perm_middle.symm

/-- The selection shuffle returns a permutation of its input, for every draw
stream. -/
theorem shuffleDraws_perm_aux :
    ∀ (n : Nat) (l : List α) (ds : List Nat), l.length ≤ n →
      (shuffleDraws l ds).Perm l := by
  intro n
  induction n with
  | zero =>
    intro l ds hle
    have : l = [] := by cases l with | nil => rfl | cons x xs => simp at hle
    subst this
    rw [shuffleDraws]
  | succ n ih =>
    intro l ds hle
    cases l with
    | nil => rw [shuffleDraws]
    | cons x xs =>
      rw [shuffleDraws]
      refine List.Perm.trans (List.Perm.cons _ (ih _ ds.tail ?_)) ?_
      · rw [List.length_eraseIdx]
        have h : ds.headD 0 % (x :: xs).length < (x :: xs).length :=
          Nat.mod_lt _ (Nat.succ_pos _)
        rw [if_pos h]
        simp only [List.length_cons] at hle ⊢
        omega
      · exact get_cons_eraseIdx_perm (x :: xs) _

theorem shuffleDraws_perm (l : List α) (ds : List Nat) :
    (shuffleDraws l ds).Perm l :=
  shuffleDraws_perm_aux l.length l ds le_rfl

/-- Wave grouping partitions the shuffled source list:  concatenating the
groups gives back the input. -/
theorem groupSplit_flatten_aux :
    ∀ (n : Nat) (l : List α) (ds : List Nat), l.length ≤ n →
      (groupSplit l ds).flatten = l := by
  intro n
  induction n with
  | zero =>
    intro l ds hle
    have : l = [] := by cases l with | nil => rfl | cons x xs => simp at hle
    subst this
    rw [groupSplit]
    rfl
  | succ n ih =>
    intro l ds hle
    cases l with
    | nil => rw [groupSplit]; rfl
    | cons x xs =>
      rw [groupSplit, List.flatten_cons]
      rw [ih _ ds.tail ?_, List.take_append_drop]
      have hpos := groupSize_pos (x :: xs).length (ds.headD 0) (Nat.succ_pos _)
      simp only [List.length_drop, List.length_cons] at *
      omega

theorem groupSplit_flatten (l : List α) (ds : List Nat) :
    (groupSplit l ds).flatten = l :=
  groupSplit_flatten_aux l.length l ds le_rfl

/-- Draining a list of waves emits exactly the clips of their concatenation. -/
theorem flatMap_seqRounds_multiset {S : Type} (gs : List (ClipQueue S)) :
    (↑(gs.flatMap seqRounds) : Multiset (S × Clip)) = queueMultiset gs.flatten := by
  induction gs with
  | nil => rfl
  | cons g rest ih =>
    show (↑(seqRounds g ++ rest.flatMap seqRounds) : Multiset (S × Clip))
      = queueMultiset ((g :: rest).flatten)
    rw [coe_append_multiset, ih, seqRounds_multiset, List.flatten_cons,
      queueMultiset_append]

/-- The weighted pick of `_sequence_burst_shuffle` always lands on a source
that still has clips, whenever one exists. -/
theorem burstsPick_spec {S : Type} (q : ClipQueue S) (d : Nat)
    (hq : ¬ q.all (fun e => e.2.isEmpty) = true) :
    ∃ e, q.get? (choosePos (fun e => e.2.length) q
        (1 + (d : Int) % (max 1 (clipCount q : Int)))) = some e ∧ 0 < e.2.length := by
  have htot : 0 < clipCount q := clipCount_pos_of_not_all q hq
  have hp1 : (1 : Int) ≤ 1 + (d : Int) % (max 1 (clipCount q : Int)) := by
    have := Int.emod_nonneg (d : Int) (by omega : (max 1 (clipCount q : Int)) ≠ 0)
    omega
  have hp2 : 1 + (d : Int) % (max 1 (clipCount q : Int)) ≤ (clipCount q : Int) := by
    have h1 := Int.emod_lt_of_pos (d : Int)
      (by omega : (0 : Int) < max 1 (clipCount q : Int))
    omega
  have hp2' : 1 + (d : Int) % (max 1 (clipCount q : Int))
      ≤ ((((q.map (fun e : S × List Clip => e.2.length)).sum : Nat)) : Int) := hp2
  exact choosePos_spec (fun e : S × List Clip => e.2.length) q _ hp1 hp2'

/-- Removing the first `k` clips of the entry at position `j` (and the entry
itself when that empties it) removes exactly those clips from the queue
multiset. -/
theorem queueMultiset_step {S : Type} (q : ClipQueue S) (j : Nat) (s : S)
    (l : List Clip) (hj : q.get? j = some (s, l)) (k : Nat) :
    queueMultiset q
      = (↑((l.take k).map (fun c => (s, c))) : Multiset (S × Clip))
        + queueMultiset
            (if (l.drop k).isEmpty then q.eraseIdx j else q.set j (s, l.drop k)) := by
  obtain ⟨hlen, hget⟩ := List.get?_eq_some.mp hj
  have hq : q.take j ++ (s, l) :: q.drop (j + 1) = q := by
    rw [← hget, List.get_cons_drop, List.take_append_drop]
  have hl : ((l : List Clip).map (fun c => (s, c)))
      = (l.take k).map (fun c => (s, c)) ++ (l.drop k).map (fun c => (s, c)) := by
    rw [← List.map_append, List.take_append_drop]
  by_cases hd : (l.drop k).isEmpty
  · have h2 : l.drop k = [] := by simpa [List.isEmpty_iff] using hd
    rw [if_pos hd, List.eraseIdx_eq_take_drop_succ]
    conv_lhs => rw [← hq]
    rw [queueMultiset_append, queueMultiset_cons, queueMultiset_append, hl, h2]
    simp only [List.map_nil, List.append_nil]
    abel
  · rw [if_neg hd, List.set_eq_take_cons_drop _ hlen]
    conv_lhs => rw [← hq]
    rw [queueMultiset_append, queueMultiset_cons, queueMultiset_append,
      queueMultiset_cons, hl, coe_append_multiset]
    abel

/-- Unfolding equation for a burst step, given where the weighted pick
landed. -/
theorem burstsGo_eq_some {S : Type} [Inhabited S] (q : ClipQueue S) (ds : List Nat)
    (hall : ¬ q.all (fun e => e.2.isEmpty) = true) (s : S) (l : List Clip)
    (hj : q.get? (choosePos (fun e => e.2.length) q
        (1 + (ds.headD 0 : Int) % (max 1 (clipCount q : Int)))) = some (s, l)) :
    burstsGo q ds =
      (l.take (min (1 + (ds.tail.headD 0 : Int)
          % (max 1 (min 3 (l.length : Int)))).toNat l.length)).map (fun c => (s, c)) ++
        burstsGo
          (if (l.drop (min (1 + (ds.tail.headD 0 : Int)
                % (max 1 (min 3 (l.length : Int)))).toNat l.length)).isEmpty
            then q.eraseIdx (choosePos (fun e => e.2.length) q
                (1 + (ds.headD 0 : Int) % (max 1 (clipCount q : Int))))
            else q.set (choosePos (fun e => e.2.length) q
                (1 + (ds.headD 0 : Int) % (max 1 (clipCount q : Int))))
              (s, l.drop (min (1 + (ds.tail.headD 0 : Int)
                % (max 1 (min 3 (l.length : Int)))).toNat l.length)))
          ds.tail.tail := by
  rw [burstsGo, dif_neg hall]
  simp only [hj, Option.getD_some]

/-- The burst loop emits exactly the queue's multiset. -/
theorem burstsGo_multiset_aux {S : Type} [Inhabited S] :
    ∀ (n : Nat) (q : ClipQueue S) (ds : List Nat), clipCount q ≤ n →
      (↑(burstsGo q ds) : Multiset (S × Clip)) = queueMultiset q := by
  intro n
  induction n with
  | zero =>
    intro q ds hle
    have hall : q.all (fun e => e.2.isEmpty) = true := by
      by_contra h
      have := clipCount_pos_of_not_all q h
      omega
    rw [burstsGo, dif_pos hall, queueMultiset_eq_zero_of_all_empty q hall]
    rfl
  | succ n ih =>
    intro q ds hle
    by_cases hall : q.all (fun e => e.2.isEmpty) = true
    · rw [burstsGo, dif_pos hall, queueMultiset_eq_zero_of_all_empty q hall]; rfl
    · obtain ⟨⟨s, l⟩, he1, hw1⟩ := burstsPick_spec q (ds.headD 0) hall
      rw [burstsGo_eq_some q ds hall s l he1]
      have hl : 0 < l.length := hw1
      have hb1 : (1 : Int) ≤ 1 + (ds.tail.headD 0 : Int)
          % (max 1 (min 3 (l.length : Int))) := by
        have := Int.emod_nonneg (ds.tail.headD 0 : Int)
          (by omega : (max 1 (min 3 (l.length : Int))) ≠ 0)
        omega
      have hk1 : 1 ≤ min (1 + (ds.tail.headD 0 : Int)
          % (max 1 (min 3 (l.length : Int)))).toNat l.length := by
        omega
      have hlt := clipCount_step_lt q _ s l he1
        (min (1 + (ds.tail.headD 0 : Int)
          % (max 1 (min 3 (l.length : Int)))).toNat l.length)
        hk1 (by omega)
      rw [coe_append_multiset, ih _ ds.tail.tail (by omega)]
      exact (queueMultiset_step q _ s l he1 _).symm

theorem burstsGo_multiset {S : Type} [Inhabited S] (q : ClipQueue S) (ds : List Nat) :
    (↑(burstsGo q ds) : Multiset (S × Clip)) = queueMultiset q :=
  burstsGo_multiset_aux (clipCount q) q ds le_rfl

/-- The chronological concatenation of `_sequence_poi` / `_sequence_strata`
emits exactly the queue's multiset. -/
theorem poi_multiset {S : Type} (pf : ClipQueue S) :
    (↑(sequence_poi pf) : Multiset (S × Clip)) = queueMultiset pf := by
  induction pf with
  | nil => rfl
  | cons e rest ih =>
    show (↑((sortClips e.2).map (fun c => (e.1, c)) ++ sequence_poi rest)
        : Multiset (S × Clip)) = queueMultiset (e :: rest)
    rw [coe_append_multiset, ih, queueMultiset_cons]
    congr 1
    exact Multiset.coe_eq_coe.mpr ((List.mergeSort_perm _ _).map _)

end SequencingMultiset

/-- Claim C4: for each of the five sequencing algorithms and every queue, the
multiset of `(source, start, duration)` clips in the returned sequence equals
the union of all input queues — no clip added, dropped or duplicated, hence
total clip duration is preserved exactly — for every possible random draw
(`ds1`, `ds2` the shuffle and grouping draws of waves, `ds3` the draws of
bursts; carousel, poi and strata draw nothing). -/
theorem c4_sequencing_preserves_multiset {S : Type} [Inhabited S] (per_file : ClipQueue S)
    (ds1 ds2 ds3 : List Nat) :
    (↑(sequence_carousel per_file) : Multiset (S × Clip)) = queueMultiset per_file
    ∧ (↑(sequence_group_waves per_file ds1 ds2) : Multiset (S × Clip))
        = queueMultiset per_file
    ∧ (↑(sequence_burst_shuffle per_file ds3) : Multiset (S × Clip))
        = queueMultiset per_file
    ∧ (↑(sequence_poi per_file) : Multiset (S × Clip)) = queueMultiset per_file
    ∧ (↑(sequence_strata per_file) : Multiset (S × Clip)) = queueMultiset per_file := by
  refine ⟨?_, ?_, ?_, ?_, ?_⟩
  · rw [sequence_carousel, seqRounds_multiset, clone_multiset]
  · rw [sequence_group_waves, flatMap_seqRounds_multiset, groupSplit_flatten,
      queueMultiset_perm (shuffleDraws_perm _ ds1), clone_multiset]
  · rw [sequence_burst_shuffle, burstsGo_multiset, clone_multiset]
  · exact poi_multiset per_file
  · exact poi_multiset per_file

/-! ### Claim C5: per-source order preservation -/

section SequencingOrder

variable {S : Type} [DecidableEq S]

/-- Restriction of an output sequence to the clips of one source, in output
order. -/
def restrictSeq (s : S) (out : ClipSeq S) : List Clip :=
  (out.filter (fun e => decide (e.1 = s))).map (fun e => e.2)

theorem restrictSeq_nil (s : S) : restrictSeq s [] = [] := rfl

theorem restrictSeq_cons_self (s : S) (c : Clip) (out : ClipSeq S) :
    restrictSeq s ((s, c) :: out) = c :: restrictSeq s out := by
  simp [restrictSeq]

theorem restrictSeq_cons_ne {t s : S} (hne : t ≠ s) (c : Clip) (out : ClipSeq S) :
    restrictSeq s ((t, c) :: out) = restrictSeq s out := by
  simp [restrictSeq, hne]

theorem restrictSeq_append (s : S) (o1 o2 : ClipSeq S) :
    restrictSeq s (o1 ++ o2) = restrictSeq s o1 ++ restrictSeq s o2 := by
  simp [restrictSeq]

theorem restrictSeq_map_self (s : S) (l : List Clip) :
    restrictSeq s (l.map (fun c => (s, c))) = l := by
  induction l with
  | nil => rfl
  | cons c rest ih => rw [List.map_cons, restrictSeq_cons_self, ih]

theorem restrictSeq_map_ne {t s : S} (hne : t ≠ s) (l : List Clip) :
    restrictSeq s (l.map (fun c => (t, c))) = [] := by
  induction l with
  | nil => rfl
  | cons c rest ih => rw [List.map_cons, restrictSeq_cons_ne hne, ih]

/-- Membership in a queue puts the key among the queue keys. -/
theorem key_mem_of_mem {q : ClipQueue S} {s : S} {l : List Clip}
    (h : (s, l) ∈ q) : s ∈ q.map Prod.fst :=
  List.mem_map_of_mem Prod.fst h

/-- In a queue with duplicate-free keys, a key determines its clip list. -/
theorem key_unique {q : ClipQueue S} (hnd : (q.map Prod.fst).Nodup)
    {s : S} {a b : List Clip} (ha : (s, a) ∈ q) (hb : (s, b) ∈ q) : a = b := by
  induction q with
  | nil => cases ha
  | cons e rest ih =>
    obtain ⟨t, tl⟩ := e
    rw [List.map_cons, List.nodup_cons] at hnd
    rcases List.mem_cons.mp ha with ha1 | ha1 <;> rcases List.mem_cons.mp hb with hb1 | hb1
    · have h3 : ((s, a) : S × List Clip) = (s, b) := ha1.trans hb1.symm
      rw [Prod.mk.injEq] at h3
      exact h3.2
    · injection ha1 with h1 h2
      exact absurd (by rw [← h1]; exact key_mem_of_mem hb1) hnd.1
    · injection hb1 with h1 h2
      exact absurd (by rw [← h1]; exact key_mem_of_mem ha1) hnd.1
    · exact ih hnd.2 ha1 hb1

/-- Round keys form a sublist of the queue keys. -/
theorem seqRound_keys_sublist (q : ClipQueue S) :
    ((seqRound q).2.map Prod.fst).Sublist (q.map Prod.fst) := by
  induction q with
  | nil => simp [seqRound]
  | cons e rest ih =>
    obtain ⟨s, l⟩ := e
    cases l with
    | nil =>
      show ((seqRound rest).2.map Prod.fst).Sublist (((s, []) :: rest).map Prod.fst)
      exact ih.trans (List.sublist_cons_self _ _)
    | cons c cs =>
      show ((if cs.isEmpty then (seqRound rest).2
          else (s, cs) :: (seqRound rest).2).map Prod.fst).Sublist
        (((s, c :: cs) :: rest).map Prod.fst)
      by_cases hcs : cs.isEmpty
      · rw [if_pos hcs]
        exact ih.trans (List.sublist_cons_self _ _)
      · rw [if_neg hcs]
        simpa using List.Sublist.cons₂ s ih

/-- A source absent from the queue contributes nothing to a round. -/
theorem seqRound_not_mem (q : ClipQueue S) (s : S) (h : s ∉ q.map Prod.fst) :
    restrictSeq s (seqRound q).1 = [] ∧ s ∉ (seqRound q).2.map Prod.fst := by
  refine ⟨?_, fun hmem => h ((seqRound_keys_sublist q).mem hmem)⟩
  induction q with
  | nil => rfl
  | cons e rest ih =>
    obtain ⟨t, l⟩ := e
    have hts : t ≠ s := by
      intro he
      exact h (by simp [he])
    have hrest : s ∉ rest.map Prod.fst := by
      intro hm
      exact h (by simp [hm])
    cases l with
    | nil => exact ih hrest
    | cons c cs =>
      show restrictSeq s ((t, c) :: (seqRound rest).1) = []
      rw [restrictSeq_cons_ne hts]
      exact ih hrest

/-- A drained source contributes nothing to a round and leaves the queue. -/
theorem seqRound_mem_nil (q : ClipQueue S) (s : S)
    (hnd : (q.map Prod.fst).Nodup) (h : (s, ([] : List Clip)) ∈ q) :
    restrictSeq s (seqRound q).1 = [] ∧ s ∉ (seqRound q).2.map Prod.fst := by
  induction q with
  | nil => cases h
  | cons e rest ih =>
    obtain ⟨t, tl⟩ := e
    rw [List.map_cons, List.nodup_cons] at hnd
    rcases List.mem_cons.mp h with h1 | h1
    · injection h1 with h1a h1b
      subst h1a
      rw [← h1b]
      show restrictSeq s (seqRound rest).1 = [] ∧ s ∉ (seqRound rest).2.map Prod.fst
      exact seqRound_not_mem rest s hnd.1
    · have hts : t ≠ s := fun he => hnd.1 (by rw [he]; exact key_mem_of_mem h1)
      have hrec := ih hnd.2 h1
      cases tl with
      | nil => exact hrec
      | cons c cs =>
        constructor
        · show restrictSeq s ((t, c) :: (seqRound rest).1) = []
          rw [restrictSeq_cons_ne hts]
          exact hrec.1
        · show s ∉ (if cs.isEmpty then (seqRound rest).2
              else (t, cs) :: (seqRound rest).2).map Prod.fst
          by_cases hcs : cs.isEmpty
          · rw [if_pos hcs]; exact hrec.2
          · rw [if_neg hcs, List.map_cons]
            intro hm
            rcases List.mem_cons.mp hm with hm1 | hm1
            · exact hts hm1.symm
            · exact hrec.2 hm1

/-- A live source contributes exactly its head clip to a round; its tail
stays in the queue unless it empties. -/
theorem seqRound_mem_cons (q : ClipQueue S) (s : S) (c : Clip) (cs : List Clip)
    (hnd : (q.map Prod.fst).Nodup) (h : (s, c :: cs) ∈ q) :
    restrictSeq s (seqRound q).1 = [c]
    ∧ (cs = [] → s ∉ (seqRound q).2.map Prod.fst)
    ∧ (cs ≠ [] → (s, cs) ∈ (seqRound q).2) := by
  induction q with
  | nil => cases h
  | cons e rest ih =>
    obtain ⟨t, tl⟩ := e
    rw [List.map_cons, List.nodup_cons] at hnd
    rcases List.mem_cons.mp h with h1 | h1
    · injection h1 with h1a h1b
      subst h1a
      subst h1b
      have hrest := seqRound_not_mem rest s hnd.1
      refine ⟨?_, ?_, ?_⟩
      · show restrictSeq s ((s, c) :: (seqRound rest).1) = [c]
        rw [restrictSeq_cons_self, hrest.1]
      · intro hcs
        subst hcs
        show s ∉ (if ([] : List Clip).isEmpty then (seqRound rest).2
            else (s, []) :: (seqRound rest).2).map Prod.fst
        have he : ([] : List Clip).isEmpty = true := rfl
        rw [if_pos he]
        exact hrest.2
      · intro hcs
        show (s, cs) ∈ (if cs.isEmpty then (seqRound rest).2
            else (s, cs) :: (seqRound rest).2)
        rw [if_neg (by simpa [List.isEmpty_iff] using hcs)]
        exact List.mem_cons_self _ _
    · have hts : t ≠ s := fun he => hnd.1 (by rw [he]; exact key_mem_of_mem h1)
      have hrec := ih hnd.2 h1
      cases tl with
      | nil => exact hrec
      | cons c2 cs2 =>
        refine ⟨?_, ?_, ?_⟩
        · show restrictSeq s ((t, c2) :: (seqRound rest).1) = [c]
          rw [restrictSeq_cons_ne hts]
          exact hrec.1
        · intro hcs
          show s ∉ (if cs2.isEmpty then (seqRound rest).2
              else (t, cs2) :: (seqRound rest).2).map Prod.fst
          by_cases hcs2 : cs2.isEmpty
          · rw [if_pos hcs2]; exact hrec.2.1 hcs
          · rw [if_neg hcs2, List.map_cons]
            intro hm
            rcases List.mem_cons.mp hm with hm1 | hm1
            · exact hts hm1.symm
            · exact hrec.2.1 hcs hm1
        · intro hcs
          show (s, cs) ∈ (if cs2.isEmpty then (seqRound rest).2
              else (t, cs2) :: (seqRound rest).2)
          by_cases hcs2 : cs2.isEmpty
          · rw [if_pos hcs2]; exact hrec.2.2 hcs
          · rw [if_neg hcs2]
            exact List.mem_cons_of_mem _ (hrec.2.2 hcs)

/-- The drain loop plays each source's clips in their queue order, and plays
nothing for absent sources. -/
theorem seqRounds_restrict_aux :
    ∀ (n : Nat) (q : ClipQueue S), queueMeasure q ≤ n → (q.map Prod.fst).Nodup →
      (∀ s, s ∉ q.map Prod.fst → restrictSeq s (seqRounds q) = [])
      ∧ (∀ s l, (s, l) ∈ q → restrictSeq s (seqRounds q) = l) := by
  intro n
  induction n with
  | zero =>
    intro q hle _
    have hq : q = [] := by
      cases q with
      | nil => rfl
      | cons e rest => rw [queueMeasure_cons] at hle; omega
    subst hq
    rw [seqRounds]
    exact ⟨fun s _ => rfl, fun s l h => absurd h (List.not_mem_nil _)⟩
  | succ n ih =>
    intro q hle hnd
    rw [seqRounds]
    by_cases hq : q.isEmpty
    · rw [dif_pos hq]
      have : q = [] := by simpa [List.isEmpty_iff] using hq
      subst this
      exact ⟨fun s _ => rfl, fun s l h => absurd h (List.not_mem_nil _)⟩
    · rw [dif_neg hq]
      have hne : q ≠ [] := by simpa [List.isEmpty_iff] using hq
      have hlt := seqRound_measure_lt q hne
      have hnd2 : ((seqRound q).2.map Prod.fst).Nodup :=
        hnd.sublist (seqRound_keys_sublist q)
      have ihr := ih (seqRound q).2 (by omega) hnd2
      constructor
      · intro s hs
        have h1 := seqRound_not_mem q s hs
        rw [restrictSeq_append, h1.1, ihr.1 s h1.2]
        rfl
      · intro s l hmem
        cases l with
        | nil =>
          have h1 := seqRound_mem_nil q s hnd hmem
          rw [restrictSeq_append, h1.1, ihr.1 s h1.2]
          rfl
        | cons c cs =>
          have h1 := seqRound_mem_cons q s c cs hnd hmem
          rw [restrictSeq_append, h1.1]
          cases cs with
          | nil =>
            rw [ihr.1 s (h1.2.1 rfl)]
            rfl
          | cons c2 cs2 =>
            rw [ihr.2 s (c2 :: cs2) (h1.2.2 (by simp))]
            rfl

/-- Packaged positional decomposition of a queue at a held index. -/
theorem bursts_step_decomp {S : Type} (q : ClipQueue S) (j : Nat) (s1 : S)
    (l1 : List Clip) (hj : q.get? j = some (s1, l1)) (l2 : List Clip) :
    q.take j ++ (s1, l1) :: q.drop (j + 1) = q
    ∧ q.eraseIdx j = q.take j ++ q.drop (j + 1)
    ∧ q.set j (s1, l2) = q.take j ++ (s1, l2) :: q.drop (j + 1) := by
  obtain ⟨hlen, hget⟩ := List.get?_eq_some.mp hj
  refine ⟨?_, List.eraseIdx_eq_take_drop_succ q j, List.set_eq_take_cons_drop _ hlen⟩
  rw [← hget, List.get_cons_drop, List.take_append_drop]

/-- Sources absent from the queue are absent from the drain-loop output
(stated without any key-uniqueness assumption). -/
theorem seqRounds_not_mem_aux {S : Type} [DecidableEq S] :
    ∀ (n : Nat) (q : ClipQueue S), queueMeasure q ≤ n →
      ∀ s, s ∉ q.map Prod.fst → restrictSeq s (seqRounds q) = [] := by
  intro n
  induction n with
  | zero =>
    intro q hle s _
    have hq : q = [] := by
      cases q with
      | nil => rfl
      | cons e rest => rw [queueMeasure_cons] at hle; omega
    subst hq
    rw [seqRounds]
    rfl
  | succ n ih =>
    intro q hle s hs
    rw [seqRounds]
    by_cases hq : q.isEmpty
    · rw [dif_pos hq]; rfl
    · rw [dif_neg hq]
      have hne : q ≠ [] := by simpa [List.isEmpty_iff] using hq
      have hlt := seqRound_measure_lt q hne
      have h1 := seqRound_not_mem q s hs
      rw [restrictSeq_append, h1.1, ih (seqRound q).2 (by omega) s h1.2]
      rfl

/-- The drain loop plays a held source's clips exactly in order. -/
theorem seqRounds_restrict {S : Type} [DecidableEq S] (q : ClipQueue S)
    (hnd : (q.map Prod.fst).Nodup) {s : S} {l : List Clip} (hmem : (s, l) ∈ q) :
    restrictSeq s (seqRounds q) = l :=
  (seqRounds_restrict_aux (queueMeasure q) q le_rfl hnd).2 s l hmem

/-- Sources absent from every wave are absent from the waves output. -/
theorem flatMap_seqRounds_not_mem {S : Type} [DecidableEq S]
    (gs : List (ClipQueue S)) (s : S) (h : s ∉ (gs.flatten).map Prod.fst) :
    restrictSeq s (gs.flatMap seqRounds) = [] := by
  induction gs with
  | nil => rfl
  | cons g rest ih =>
    rw [List.flatten_cons, List.map_append] at h
    show restrictSeq s (seqRounds g ++ rest.flatMap seqRounds) = []
    rw [restrictSeq_append,
      seqRounds_not_mem_aux (queueMeasure g) g le_rfl s (fun hm => h (List.mem_append_left _ hm)),
      ih (fun hm => h (List.mem_append_right _ hm))]
    rfl

/-- Restriction through a wave partition with globally duplicate-free keys:
the unique wave holding the source plays its clips in order, the others play
nothing. -/
theorem flatMap_seqRounds_restrict {S : Type} [DecidableEq S]
    (gs : List (ClipQueue S)) (s : S) (l : List Clip)
    (hnd : ((gs.flatten).map Prod.fst).Nodup) (hmem : (s, l) ∈ gs.flatten) :
    restrictSeq s (gs.flatMap seqRounds) = l := by
  induction gs with
  | nil => cases hmem
  | cons g rest ih =>
    rw [List.flatten_cons, List.map_append] at hnd
    rw [List.flatten_cons] at hmem
    have hdis := (List.nodup_append.mp hnd).2.2
    show restrictSeq s (seqRounds g ++ rest.flatMap seqRounds) = l
    rw [restrictSeq_append]
    rcases List.mem_append.mp hmem with hm | hm
    · rw [seqRounds_restrict g (List.nodup_append.mp hnd).1 hm,
        flatMap_seqRounds_not_mem rest s
          (fun hk => hdis (key_mem_of_mem hm) hk),
        List.append_nil]
    · rw [seqRounds_not_mem_aux (queueMeasure g) g le_rfl s
          (fun hk => hdis hk (key_mem_of_mem hm)),
        ih (List.nodup_append.mp hnd).2.1 hm]
      rfl

/-- Clone keys form a sublist of the queue keys. -/
theorem clone_keys_sublist (q : ClipQueue S) :
    ((clone_clip_queue q).map Prod.fst).Sublist (q.map Prod.fst) :=
  (List.filter_sublist q).map Prod.fst

/-- A held source with clips left survives cloning. -/
theorem clone_mem {q : ClipQueue S} {s : S} {l : List Clip}
    (h : (s, l) ∈ q) (hne : l ≠ []) : (s, l) ∈ clone_clip_queue q :=
  List.mem_filter.mpr ⟨h, by simpa [List.isEmpty_iff] using hne⟩

/-- A drained source does not survive cloning (keys unique). -/
theorem clone_not_mem_key {q : ClipQueue S} {s : S}
    (hnd : (q.map Prod.fst).Nodup) (h : (s, ([] : List Clip)) ∈ q) :
    s ∉ (clone_clip_queue q).map Prod.fst := by
  intro hs
  obtain ⟨e, he, hfst⟩ := List.mem_map.mp hs
  obtain ⟨heq, hne⟩ := List.mem_filter.mp he
  have hmem2 : (s, e.2) ∈ q := by
    have : e = (s, e.2) := by
      rw [← hfst]
    rw [← this]
    exact heq
  have := key_unique hnd h hmem2
  have hne2 : e.2 ≠ [] := by simpa [List.isEmpty_iff] using hne
  exact hne2 this.symm

end SequencingOrder

section BurstsOrder

variable {S : Type} [DecidableEq S] [Inhabited S]

/-- Sources absent from the queue are absent from the burst output. -/
theorem burstsGo_not_mem_aux :
    ∀ (n : Nat) (q : ClipQueue S) (ds : List Nat), clipCount q ≤ n →
      ∀ s, s ∉ q.map Prod.fst → restrictSeq s (burstsGo q ds) = [] := by
  intro n
  induction n with
  | zero =>
    intro q ds hle s _
    have hall : q.all (fun e => e.2.isEmpty) = true := by
      by_contra h
      have := clipCount_pos_of_not_all q h
      omega
    rw [burstsGo, dif_pos hall]
    rfl
  | succ n ih =>
    intro q ds hle s hs
    by_cases hall : q.all (fun e => e.2.isEmpty) = true
    · rw [burstsGo, dif_pos hall]; rfl
    · obtain ⟨⟨s1, l1⟩, he1, hw1⟩ := burstsPick_spec q (ds.headD 0) hall
      rw [burstsGo_eq_some q ds hall s1 l1 he1, restrictSeq_append]
      have hmem1 : (s1, l1) ∈ q := List.get?_mem he1
      have hs1 : s1 ≠ s := fun he => hs (he ▸ key_mem_of_mem hmem1)
      rw [restrictSeq_map_ne hs1]
      have hl1 : 0 < l1.length := hw1
      have hb1 : (1 : Int) ≤ 1 + (ds.tail.headD 0 : Int)
          % (max 1 (min 3 (l1.length : Int))) := by
        have := Int.emod_nonneg (ds.tail.headD 0 : Int)
          (by omega : (max 1 (min 3 (l1.length : Int))) ≠ 0)
        omega
      have hk1 : 1 ≤ min (1 + (ds.tail.headD 0 : Int)
          % (max 1 (min 3 (l1.length : Int)))).toNat l1.length := by omega
      have hlt := clipCount_step_lt q _ s1 l1 he1
        (min (1 + (ds.tail.headD 0 : Int)
          % (max 1 (min 3 (l1.length : Int)))).toNat l1.length)
        hk1 (by omega)
      obtain ⟨hq, herase, hset⟩ := bursts_step_decomp q _ s1 l1 he1
        (l1.drop (min (1 + (ds.tail.headD 0 : Int)
          % (max 1 (min 3 (l1.length : Int)))).toNat l1.length))
      have hsq : s ∉ (q.take (choosePos (fun e => e.2.length) q
            (1 + (ds.headD 0 : Int) % (max 1 (clipCount q : Int))))).map Prod.fst
          ∧ s ∉ (q.drop ((choosePos (fun e => e.2.length) q
            (1 + (ds.headD 0 : Int) % (max 1 (clipCount q : Int)))) + 1)).map Prod.fst := by
        constructor <;> intro hm <;> apply hs
        · rw [← hq, List.map_append]
          exact List.mem_append_left _ hm
        · rw [← hq, List.map_append]
          refine List.mem_append_right _ ?_
          rw [List.map_cons]
          exact List.mem_cons_of_mem _ hm
      have hnot2 : ∀ q2 : ClipQueue S,
          q2 = (if (l1.drop (min (1 + (ds.tail.headD 0 : Int)
                % (max 1 (min 3 (l1.length : Int)))).toNat l1.length)).isEmpty
            then q.eraseIdx (choosePos (fun e => e.2.length) q
                (1 + (ds.headD 0 : Int) % (max 1 (clipCount q : Int))))
            else q.set (choosePos (fun e => e.2.length) q
                (1 + (ds.headD 0 : Int) % (max 1 (clipCount q : Int))))
              (s1, l1.drop (min (1 + (ds.tail.headD 0 : Int)
                % (max 1 (min 3 (l1.length : Int)))).toNat l1.length))) →
          s ∉ q2.map Prod.fst := by
        intro q2 hq2
        subst hq2
        by_cases hdrop : (l1.drop (min (1 + (ds.tail.headD 0 : Int)
            % (max 1 (min 3 (l1.length : Int)))).toNat l1.length)).isEmpty
        · rw [if_pos hdrop, herase, List.map_append]
          intro hm
          rcases List.mem_append.mp hm with hm1 | hm1
          · exact hsq.1 hm1
          · exact hsq.2 hm1
        · rw [if_neg hdrop, hset, List.map_append, List.map_cons]
          intro hm
          rcases List.mem_append.mp hm with hm1 | hm1
          · exact hsq.1 hm1
          · rcases List.mem_cons.mp hm1 with hm2 | hm2
            · exact hs1 hm2.symm
            · exact hsq.2 hm2
      rw [ih _ ds.tail.tail (by omega) s (hnot2 _ rfl)]
      rfl

/-- The burst loop plays a held source's clips exactly in order (keys
unique). -/
theorem burstsGo_restrict_aux :
    ∀ (n : Nat) (q : ClipQueue S) (ds : List Nat), clipCount q ≤ n →
      (q.map Prod.fst).Nodup →
      ∀ s l, (s, l) ∈ q → restrictSeq s (burstsGo q ds) = l := by
  intro n
  induction n with
  | zero =>
    intro q ds hle hnd s l hmem
    have hall : q.all (fun e => e.2.isEmpty) = true := by
      by_contra h
      have := clipCount_pos_of_not_all q h
      omega
    rw [burstsGo, dif_pos hall]
    rw [List.all_eq_true] at hall
    have := hall _ hmem
    have : l = [] := by simpa [List.isEmpty_iff] using this
    rw [this]
    rfl
  | succ n ih =>
    intro q ds hle hnd s l hmem
    by_cases hall : q.all (fun e => e.2.isEmpty) = true
    · rw [burstsGo, dif_pos hall]
      rw [List.all_eq_true] at hall
      have := hall _ hmem
      have : l = [] := by simpa [List.isEmpty_iff] using this
      rw [this]
      rfl
    · obtain ⟨⟨s1, l1⟩, he1, hw1⟩ := burstsPick_spec q (ds.headD 0) hall
      rw [burstsGo_eq_some q ds hall s1 l1 he1, restrictSeq_append]
      have hmem1 : (s1, l1) ∈ q := List.get?_mem he1
      have hl1 : 0 < l1.length := hw1
      have hb1 : (1 : Int) ≤ 1 + (ds.tail.headD 0 : Int)
          % (max 1 (min 3 (l1.length : Int))) := by
        have := Int.emod_nonneg (ds.tail.headD 0 : Int)
          (by omega : (max 1 (min 3 (l1.length : Int))) ≠ 0)
        omega
      have hk1 : 1 ≤ min (1 + (ds.tail.headD 0 : Int)
          % (max 1 (min 3 (l1.length : Int)))).toNat l1.length := by omega
      have hlt := clipCount_step_lt q _ s1 l1 he1
        (min (1 + (ds.tail.headD 0 : Int)
          % (max 1 (min 3 (l1.length : Int)))).toNat l1.length)
        hk1 (by omega)
      obtain ⟨hq, herase, hset⟩ := bursts_step_decomp q _ s1 l1 he1
        (l1.drop (min (1 + (ds.tail.headD 0 : Int)
          % (max 1 (min 3 (l1.length : Int)))).toNat l1.length))
      have hkeysq : q.map Prod.fst
          = (q.take (choosePos (fun e => e.2.length) q
              (1 + (ds.headD 0 : Int) % (max 1 (clipCount q : Int))))).map Prod.fst
            ++ s1 :: (q.drop ((choosePos (fun e => e.2.length) q
              (1 + (ds.headD 0 : Int) % (max 1 (clipCount q : Int)))) + 1)).map Prod.fst := by
        conv_lhs => rw [← hq]
        rw [List.map_append, List.map_cons]
      by_cases hss : s1 = s
      · subst hss
        have hll : l1 = l := key_unique hnd hmem1 hmem
        subst hll
        rw [restrictSeq_map_self]
        by_cases hdrop : (l1.drop (min (1 + (ds.tail.headD 0 : Int)
            % (max 1 (min 3 (l1.length : Int)))).toNat l1.length)).isEmpty
        · rw [if_pos hdrop]
          rw [if_pos hdrop] at hlt
          have hdrop2 : l1.drop (min (1 + (ds.tail.headD 0 : Int)
              % (max 1 (min 3 (l1.length : Int)))).toNat l1.length) = [] := by
            simpa [List.isEmpty_iff] using hdrop
          have hnot : s1 ∉ (q.eraseIdx (choosePos (fun e => e.2.length) q
              (1 + (ds.headD 0 : Int) % (max 1 (clipCount q : Int))))).map Prod.fst := by
            rw [herase, List.map_append]
            have hnd2 := hkeysq ▸ hnd
            rw [List.nodup_append] at hnd2
            intro hm
            rcases List.mem_append.mp hm with hm1 | hm1
            · exact hnd2.2.2 hm1 (List.mem_cons_self _ _)
            · exact (List.nodup_cons.mp hnd2.2.1).1 hm1
          rw [burstsGo_not_mem_aux n _ ds.tail.tail (by omega) s1 hnot, List.append_nil]
          conv_rhs => rw [← List.take_append_drop (min (1 + (ds.tail.headD 0 : Int)
            % (max 1 (min 3 (l1.length : Int)))).toNat l1.length) l1]
          rw [hdrop2, List.append_nil]
        · rw [if_neg hdrop]
          rw [if_neg hdrop] at hlt
          have hmem2 : (s1, l1.drop (min (1 + (ds.tail.headD 0 : Int)
              % (max 1 (min 3 (l1.length : Int)))).toNat l1.length))
              ∈ q.set (choosePos (fun e => e.2.length) q
                (1 + (ds.headD 0 : Int) % (max 1 (clipCount q : Int))))
                (s1, l1.drop (min (1 + (ds.tail.headD 0 : Int)
                  % (max 1 (min 3 (l1.length : Int)))).toNat l1.length)) := by
            rw [hset]
            exact List.mem_append_right _ (List.mem_cons_self _ _)
          have hnd2 : ((q.set (choosePos (fun e => e.2.length) q
              (1 + (ds.headD 0 : Int) % (max 1 (clipCount q : Int))))
                (s1, l1.drop (min (1 + (ds.tail.headD 0 : Int)
                  % (max 1 (min 3 (l1.length : Int)))).toNat l1.length))).map
                Prod.fst).Nodup := by
            rw [hset, List.map_append, List.map_cons]
            exact hkeysq ▸ hnd
          rw [ih _ ds.tail.tail (by omega) hnd2 s1 _ hmem2, List.take_append_drop]
      · rw [restrictSeq_map_ne hss]
        have hmemTD : (s, l) ∈ q.take (choosePos (fun e => e.2.length) q
              (1 + (ds.headD 0 : Int) % (max 1 (clipCount q : Int))))
            ++ q.drop ((choosePos (fun e => e.2.length) q
              (1 + (ds.headD 0 : Int) % (max 1 (clipCount q : Int)))) + 1) := by
          have hm0 : (s, l) ∈ q.take (choosePos (fun e => e.2.length) q
                (1 + (ds.headD 0 : Int) % (max 1 (clipCount q : Int))))
              ++ (s1, l1) :: q.drop ((choosePos (fun e => e.2.length) q
                (1 + (ds.headD 0 : Int) % (max 1 (clipCount q : Int)))) + 1) := by
            rw [hq]
            exact hmem
          rcases List.mem_append.mp hm0 with hm | hm
          · exact List.mem_append_left _ hm
          · rcases List.mem_cons.mp hm with hm1 | hm1
            · exact absurd (congrArg Prod.fst hm1).symm hss
            · exact List.mem_append_right _ hm1
        by_cases hdrop : (l1.drop (min (1 + (ds.tail.headD 0 : Int)
            % (max 1 (min 3 (l1.length : Int)))).toNat l1.length)).isEmpty
        · rw [if_pos hdrop]
          rw [if_pos hdrop] at hlt
          have hnd3 := hkeysq ▸ hnd
          rw [List.nodup_append] at hnd3
          have hnd2 : ((q.eraseIdx (choosePos (fun e => e.2.length) q
              (1 + (ds.headD 0 : Int) % (max 1 (clipCount q : Int))))).map
                Prod.fst).Nodup := by
            rw [herase, List.map_append, List.nodup_append]
            exact ⟨hnd3.1, (List.nodup_cons.mp hnd3.2.1).2,
              fun a ha hb => hnd3.2.2 ha (List.mem_cons_of_mem _ hb)⟩
          have hmem2 : (s, l) ∈ q.eraseIdx (choosePos (fun e => e.2.length) q
              (1 + (ds.headD 0 : Int) % (max 1 (clipCount q : Int)))) := by
            rw [herase]
            exact hmemTD
          rw [ih _ ds.tail.tail (by omega) hnd2 s l hmem2]
          rfl
        · rw [if_neg hdrop]
          rw [if_neg hdrop] at hlt
          have hmem2 : (s, l) ∈ q.set (choosePos (fun e => e.2.length) q
              (1 + (ds.headD 0 : Int) % (max 1 (clipCount q : Int))))
              (s1, l1.drop (min (1 + (ds.tail.headD 0 : Int)
                % (max 1 (min 3 (l1.length : Int)))).toNat l1.length)) := by
            rw [hset]
            rcases List.mem_append.mp hmemTD with hm | hm
            · exact List.mem_append_left _ hm
            · exact List.mem_append_right _ (List.mem_cons_of_mem _ hm)
          have hnd2 : ((q.set (choosePos (fun e => e.2.length) q
              (1 + (ds.headD 0 : Int) % (max 1 (clipCount q : Int))))
                (s1, l1.drop (min (1 + (ds.tail.headD 0 : Int)
                  % (max 1 (min 3 (l1.length : Int)))).toNat l1.length))).map
                Prod.fst).Nodup := by
            rw [hset, List.map_append, List.map_cons]
            exact hkeysq ▸ hnd
          rw [ih _ ds.tail.tail (by omega) hnd2 s l hmem2]
          rfl

end BurstsOrder

section PoiOrder

variable {S : Type} [DecidableEq S]

/-- Sources absent from the queue are absent from the poi/strata output. -/
theorem poi_not_mem (pf : ClipQueue S) (s : S) (h : s ∉ pf.map Prod.fst) :
    restrictSeq s (sequence_poi pf) = [] := by
  induction pf with
  | nil => rfl
  | cons e rest ih =>
    obtain ⟨t, tl⟩ := e
    have hrest : s ∉ rest.map Prod.fst := fun hm => h (by
      rw [List.map_cons]
      exact List.mem_cons_of_mem _ hm)
    have hts : t ≠ s := fun he => h (by
      rw [he]
      exact key_mem_of_mem (List.mem_cons_self (s, tl) rest))
    show restrictSeq s ((sortClips tl).map (fun c => ((t, tl).1, c))
        ++ sequence_poi rest) = []
    rw [restrictSeq_append, restrictSeq_map_ne hts, ih hrest]
    rfl

/-- The poi/strata concatenation plays each start-sorted source's clips
exactly in order (keys unique). -/
theorem poi_restrict :
    ∀ (pf : ClipQueue S), (pf.map Prod.fst).Nodup →
      (∀ e ∈ pf, e.2.Pairwise (fun a b : Clip => a.1 ≤ b.1)) →
      ∀ s l, (s, l) ∈ pf → restrictSeq s (sequence_poi pf) = l := by
  intro pf
  induction pf with
  | nil => intro _ _ s l hmem; cases hmem
  | cons e rest ih =>
    intro hnd hsort s l hmem
    obtain ⟨t, tl⟩ := e
    rw [List.map_cons, List.nodup_cons] at hnd
    rcases List.mem_cons.mp hmem with h1 | h1
    · injection h1 with h1a h1b
      subst h1a
      subst h1b
      have hsorted : l.Pairwise
          (fun a b : Clip => (fun a b : Clip => decide (a.1 ≤ b.1)) a b = true) := by
        have := hsort (s, l) (List.mem_cons_self _ _)
        exact this.imp (fun h => by simpa using h)
      have hsc : sortClips l = l := List.mergeSort_of_sorted hsorted
      show restrictSeq s ((sortClips l).map (fun c => ((s, l).1, c))
          ++ sequence_poi rest) = l
      rw [hsc, restrictSeq_append, restrictSeq_map_self, poi_not_mem rest s hnd.1,
        List.append_nil]
    · have hts : t ≠ s := fun he => hnd.1 (by rw [he]; exact key_mem_of_mem h1)
      show restrictSeq s ((sortClips tl).map (fun c => ((t, tl).1, c))
          ++ sequence_poi rest) = l
      rw [restrictSeq_append, restrictSeq_map_ne hts,
        ih hnd.2 (fun e he => hsort e (List.mem_cons_of_mem _ he)) s l h1]
      rfl

end PoiOrder

/-- Claim C5: for every queue whose per-source clip lists are start-sorted
(the stated precondition; dictionary keys are unique), every one of the five
sequencing algorithms emits each source's clips strictly in input order: the
restriction of the output to any one source equals that source's input list,
for every possible random draw. -/
theorem c5_sequencing_preserves_source_order {S : Type} [DecidableEq S] [Inhabited S]
    (per_file : ClipQueue S) (ds1 ds2 ds3 : List Nat) (s : S) (clips : List Clip)
    (hnd : (per_file.map Prod.fst).Nodup)
    (hsort : ∀ e ∈ per_file, e.2.Pairwise (fun a b : Clip => a.1 ≤ b.1))
    (hmem : (s, clips) ∈ per_file) :
    restrictSeq s (sequence_carousel per_file) = clips
    ∧ restrictSeq s (sequence_group_waves per_file ds1 ds2) = clips
    ∧ restrictSeq s (sequence_burst_shuffle per_file ds3) = clips
    ∧ restrictSeq s (sequence_poi per_file) = clips
    ∧ restrictSeq s (sequence_strata per_file) = clips := by
  have hndc : ((clone_clip_queue per_file).map Prod.fst).Nodup :=
    hnd.sublist (clone_keys_sublist per_file)
  have hpoi : restrictSeq s (sequence_poi per_file) = clips :=
    poi_restrict per_file hnd hsort s clips hmem
  by_cases hcl : clips = []
  · subst hcl
    have hnm : s ∉ (clone_clip_queue per_file).map Prod.fst :=
      clone_not_mem_key hnd hmem
    refine ⟨?_, ?_, ?_, hpoi, hpoi⟩
    · exact seqRounds_not_mem_aux _ _ le_rfl s hnm
    · unfold sequence_group_waves
      apply flatMap_seqRounds_not_mem
      rw [groupSplit_flatten]
      intro hk
      exact hnm (((shuffleDraws_perm (clone_clip_queue per_file) ds1).map
        Prod.fst).mem_iff.mp hk)
    · unfold sequence_burst_shuffle
      exact burstsGo_not_mem_aux _ _ ds3 le_rfl s hnm
  · have hmc : (s, clips) ∈ clone_clip_queue per_file := clone_mem hmem hcl
    refine ⟨?_, ?_, ?_, hpoi, hpoi⟩
    · exact seqRounds_restrict _ hndc hmc
    · unfold sequence_group_waves
      apply flatMap_seqRounds_restrict
      · rw [groupSplit_flatten]
        exact (((shuffleDraws_perm (clone_clip_queue per_file) ds1).map
          Prod.fst).symm.nodup hndc)
      · rw [groupSplit_flatten]
        exact (shuffleDraws_perm (clone_clip_queue per_file) ds1).mem_iff.mpr hmc
    · unfold sequence_burst_shuffle
      exact burstsGo_restrict_aux _ _ ds3 le_rfl hndc s clips hmc

/-- Witness for C5 at the spec's Scenario D queue: two sources, the first
with clips `(0,5), (10,5)`, the second with `(0,5)`. -/
theorem c5_sequencing_preserves_source_order_witness :
    restrictSeq 0 (sequence_carousel
        [((0 : Nat), [((0 : Int), (5 : Int)), (10, 5)]), (1, [(0, 5)])])
      = [((0 : Int), (5 : Int)), (10, 5)]
    ∧ restrictSeq 0 (sequence_group_waves
        [((0 : Nat), [((0 : Int), (5 : Int)), (10, 5)]), (1, [(0, 5)])] [] [])
      = [((0 : Int), (5 : Int)), (10, 5)]
    ∧ restrictSeq 0 (sequence_burst_shuffle
        [((0 : Nat), [((0 : Int), (5 : Int)), (10, 5)]), (1, [(0, 5)])] [])
      = [((0 : Int), (5 : Int)), (10, 5)]
    ∧ restrictSeq 0 (sequence_poi
        [((0 : Nat), [((0 : Int), (5 : Int)), (10, 5)]), (1, [(0, 5)])])
      = [((0 : Int), (5 : Int)), (10, 5)]
    ∧ restrictSeq 0 (sequence_strata
        [((0 : Nat), [((0 : Int), (5 : Int)), (10, 5)]), (1, [(0, 5)])])
      = [((0 : Int), (5 : Int)), (10, 5)] :=
  c5_sequencing_preserves_source_order
    [((0 : Nat), [((0 : Int), (5 : Int)), (10, 5)]), (1, [(0, 5)])] [] [] []
    0 [((0 : Int), (5 : Int)), (10, 5)]
    (by decide) (by decide) (by decide)

/-! ### Algorithm Picker (`ClipAlgorithmPicker`, src/main.py lines 4043-4070) -/

/-- The fixed sequencing-algorithm key set, in `CLIP_SEQUENCE_ALGORITHMS`
dictionary order. -/
def ALGO_KEYS : List String := ["carousel", "waves", "bursts", "poi", "strata"]

/-- State of a `ClipAlgorithmPicker` (src/main.py lines 4043-4070); `cur`
models the private `_current` field.  The constructor's `RuntimeError` guard
for an empty key set is dead code: `ALGO_KEYS` is a nonempty constant. -/
structure ClipAlgorithmPicker where
  total_slots : Int
  keys : List String
  unique_quota : Int
  unique_deck : List String
  unique_index : Int
  recycle : List String
  cur : Option String

/-- Constructor: `total_slots = max(1, total_slots)`,
`unique_quota = min(total_slots, len(keys))`, and a full shuffled deck
(`random.sample(keys, len(keys))`, modelled by the selection shuffle on the
draw stream `ds`). -/
def pickerInit (total_slots0 : Int) (ds : List Nat) : ClipAlgorithmPicker :=
  let ts := max 1 total_slots0
  { total_slots := ts
    keys := ALGO_KEYS
    unique_quota := min ts (ALGO_KEYS.length : Int)
    unique_deck := shuffleDraws ALGO_KEYS ds
    unique_index := 0
    recycle := []
    cur := none }

/-- Translation of `_next_from_pool`: serve the unique deck while within
quota, then pop from the recycling pool, refilling it with a fresh shuffle
when empty (`self.recycle.pop()` pops the last element).  `ds` feeds a
potential refill shuffle. -/
def nextFromPool (st : ClipAlgorithmPicker) (ds : List Nat) :
    String × ClipAlgorithmPicker :=
  if st.unique_index < st.unique_quota then
    ((st.unique_deck.get? st.unique_index.toNat).getD "",
      { st with unique_index := st.unique_index + 1 })
  else
    let rec0 := if st.recycle.isEmpty then shuffleDraws st.keys ds else st.recycle
    ((rec0.getLast?).getD "", { st with recycle := rec0.dropLast })

/-- Translation of `current()`: an idempotent peek that draws from the pool
only when nothing is pending. -/
def pickerCurrent (st : ClipAlgorithmPicker) (ds : List Nat) :
    String × ClipAlgorithmPicker :=
  match st.cur with
  | some k => (k, st)
  | none =>
    let r := nextFromPool st ds
    (r.1, { r.2 with cur := some r.1 })

/-- Translation of `commit()`: clear the pending key, advancing the cursor. -/
def pickerCommit (st : ClipAlgorithmPicker) : ClipAlgorithmPicker :=
  { st with cur := none }

/-- A run of `n` successful `current()`/`commit()` cycles, collecting the
keys served; `dss i` feeds the draws of the `i`-th cycle. -/
def runCycles : Nat → ClipAlgorithmPicker → (Nat → List Nat) → List String
  | 0, _, _ => []
  | n + 1, st, dss =>
    (pickerCurrent st (dss 0)).1 ::
      runCycles n (pickerCommit (pickerCurrent st (dss 0)).2) (fun i => dss (i + 1))

/-- Within the unique quota, cycles read the deck in order. -/
theorem runCycles_eq_deck :
    ∀ (n : Nat) (st : ClipAlgorithmPicker) (dss : Nat → List Nat),
      st.cur = none → 0 ≤ st.unique_index →
      st.unique_index + (n : Int) ≤ st.unique_quota →
      st.unique_quota ≤ (st.unique_deck.length : Int) →
      runCycles n st dss = (st.unique_deck.drop st.unique_index.toNat).take n := by
  intro n
  induction n with
  | zero => intro st dss _ _ _ _; simp [runCycles]
  | succ n ih =>
    intro st dss hcur hi0 hin hqd
    have hlt : st.unique_index < st.unique_quota := by omega
    have hidx : st.unique_index.toNat < st.unique_deck.length := by omega
    rw [runCycles]
    simp only [pickerCurrent, hcur, nextFromPool, if_pos hlt, pickerCommit]
    have hget : st.unique_deck.get? st.unique_index.toNat
        = some (st.unique_deck.get ⟨st.unique_index.toNat, hidx⟩) :=
      List.get?_eq_get hidx
    rw [hget]
    have hrec := ih { st with unique_index := st.unique_index + 1, cur := none }
      (fun i => dss (i + 1)) rfl
      (show (0 : Int) ≤ st.unique_index + 1 by omega)
      (show st.unique_index + 1 + (n : Int) ≤ st.unique_quota by omega)
      (show st.unique_quota ≤ (st.unique_deck.length : Int) from hqd)
    rw [hrec]
    have htn : (st.unique_index + 1).toNat = st.unique_index.toNat + 1 := by omega
    rw [htn]
    have hdrop : st.unique_deck.drop st.unique_index.toNat
        = st.unique_deck.get ⟨st.unique_index.toNat, hidx⟩
          :: st.unique_deck.drop (st.unique_index.toNat + 1) :=
      List.drop_eq_get_cons hidx
    rw [hdrop]
    rfl

/-- Claim C6: across the first `quota = min(total_slots, k)` committed
cycles, the served keys are pairwise distinct (they are an in-order segment
of a shuffled duplicate-free deck); and `current()` without an intervening
`commit()` always returns the same key with the state unchanged. -/
theorem c6_picker_fairness (total_slots0 : Int) (ds : List Nat)
    (dss : Nat → List Nat) (n : Nat) (st : ClipAlgorithmPicker)
    (ds1 ds2 : List Nat)
    (hn : (n : Int) ≤ min (max 1 total_slots0) 5) :
    (runCycles n (pickerInit total_slots0 ds) dss).Nodup
    ∧ pickerCurrent (pickerCurrent st ds1).2 ds2
        = ((pickerCurrent st ds1).1, (pickerCurrent st ds1).2) := by
  constructor
  · have hperm := shuffleDraws_perm ALGO_KEYS ds
    have hlen : (shuffleDraws ALGO_KEYS ds).length = 5 := hperm.length_eq
    have hak : ALGO_KEYS.length = 5 := rfl
    have hrun := runCycles_eq_deck n (pickerInit total_slots0 ds) dss rfl
      (by simp [pickerInit]) (by simp [pickerInit, hak]; omega)
      (by simp [pickerInit, hak, hlen])
    rw [hrun]
    have hnd : (shuffleDraws ALGO_KEYS ds).Nodup :=
      hperm.symm.nodup (by decide)
    exact hnd.sublist ((List.take_sublist _ _).trans (List.drop_sublist _ _))
  · match hc : st.cur with
    | some k => simp [pickerCurrent, hc]
    | none => simp [pickerCurrent, hc]

/-- Witness for C6 at `total_slots = 3` with trivial draw streams. -/
theorem c6_picker_fairness_witness :
    (runCycles 3 (pickerInit 3 []) (fun _ => [])).Nodup
    ∧ pickerCurrent (pickerCurrent (pickerInit 3 []) []).2 []
        = ((pickerCurrent (pickerInit 3 []) []).1,
           (pickerCurrent (pickerInit 3 []) []).2) :=
  c6_picker_fairness 3 [] (fun _ => []) 3 (pickerInit 3 []) [] [] (by decide)

/-! ### Keyframe Snapper (src/main.py lines 5148-5231) -/

/-- Per-source keyframe cache entry: known keyframe timestamps (sorted,
deduplicated) and the full-scan flag. -/
structure KFEntry where
  times : List Rat
  full_scan : Bool

/-- The cache-sortedness invariant. -/
def SortedQ (times : List Rat) : Prop := times.Pairwise (· ≤ ·)

/-- `bisect_left` on the cache: on sorted input (the invariant), the number
of elements `< v` — a linear rendering of the binary search's result. -/
def bisectLeft (times : List Rat) (v : Rat) : Nat :=
  (times.takeWhile (fun x => decide (x < v))).length

/-- `bisect_right` on the cache: on sorted input, the number of elements
`<= v`. -/
def bisectRight (times : List Rat) (v : Rat) : Nat :=
  (times.takeWhile (fun x => decide (x ≤ v))).length

/-- One insertion of `_insert_keyframes`: insert the rounded value at its
bisect position unless a cached value within `1e-6` already sits there. -/
def insertKF (times : List Rat) (val : Rat) : List Rat :=
  let rounded := round6 val
  let idx := bisectLeft times rounded
  if h : idx < times.length then
    if |times.get ⟨idx, h⟩ - rounded| ≤ 1/1000000 then times
    else times.insertIdx idx rounded
  else times.insertIdx idx rounded

/-- Translation of `_insert_keyframes`: fold the probed values into the
cache. -/
def insertKeyframes (e : KFEntry) (vals : List Rat) : KFEntry :=
  { e with times := vals.foldl insertKF e.times }

/-- Translation of `_find_prev`: `None` on an empty cache; otherwise the
latest cached keyframe `<= t` when one exists (`times[idx - 1]`), and the
FIRST cached keyframe — which exceeds `t` — when none does (`times[0]`). -/
def findPrev (times : List Rat) (t : Rat) : Option Rat :=
  if times.isEmpty then none
  else if 0 < bisectRight times t then times.get? (bisectRight times t - 1)
  else times.head?

/-- Sorting of the probe output (`return sorted(found)`). -/
def sortQ (l : List Rat) : List Rat := l.mergeSort (fun a b => decide (a ≤ b))

/-- The expanding-window probe loop of `get_prev_keyframe_time`
(KEYFRAME_INITIAL_WINDOW = 10, KEYFRAME_MAX_WINDOW = 300,
KEYFRAME_LOOKAHEAD = 0.25): probe `[max(0, t - window), max(t + 1/4,
window_start + 1/20)]`, merge, re-look-up, and double the window until a hit,
the window floor reaches 0, or the window exceeds 300.  The loop is modelled
with structural fuel; the caller passes fuel 6, which the doubling
`10 * 2^k <= 300` (at most five iterations) never exhausts, and the
fuel-out result coincides with the window-exceeded result. -/
def kfLoop (probe : Option Rat → Option Rat → List Rat) (t : Rat) :
    Nat → Rat → KFEntry → Option Rat × KFEntry
  | 0, _, e => (none, e)
  | fuel + 1, window, e =>
    if window ≤ 300 then
      let wstart := max 0 (t - window)
      let e1 := insertKeyframes e (sortQ (probe (some wstart)
        (some (max (t + 1/4) (wstart + 1/20)))))
      let c := findPrev e1.times t
      if c.isSome = true ∨ wstart ≤ 0 then (c, e1)
      else kfLoop probe t fuel (window * 2) e1
    else (none, e)

/-- Translation of `get_prev_keyframe_time` (src/main.py lines 5203-5231),
with the external `_probe_keyframes` subprocess modelled by the `probe`
oracle (interval endpoints as `Option` arguments; `none` for a full scan). -/
def get_prev_keyframe_time (probe : Option Rat → Option Rat → List Rat)
    (e : KFEntry) (t : Rat) : Rat × KFEntry :=
  match findPrev e.times t with
  | some c => (c, e)
  | none =>
    let r := kfLoop probe t 6 10 e
    match r.1 with
    | some v => (v, r.2)
    | none =>
      if !r.2.full_scan then
        let e2 : KFEntry :=
          { insertKeyframes r.2 (sortQ (probe none none)) with full_scan := true }
        match findPrev e2.times t with
        | some v => (v, e2)
        | none => (t, e2)
      else (t, r.2)

theorem insertIdx_split (A B : List Rat) (x : Rat) :
    List.insertIdx A.length x (A ++ B) = A ++ x :: B := by
  induction A with
  | nil => rfl
  | cons a rest ih => simp [List.insertIdx_succ_cons, ih]

/-- On a sorted cache, everything past the `< r` prefix is `>= r`. -/
theorem sorted_dropWhile_lt_ge (times : List Rat) (ht : SortedQ times) (r : Rat) :
    ∀ x ∈ times.dropWhile (fun y => decide (y < r)), r ≤ x := by
  induction times with
  | nil => intro x hx; cases hx
  | cons a rest ih =>
    rw [SortedQ, List.pairwise_cons] at ht
    intro x hx
    by_cases ha : a < r
    · rw [List.dropWhile_cons, if_pos (by simpa using ha)] at hx
      exact ih ht.2 x hx
    · rw [List.dropWhile_cons, if_neg (by simpa using ha)] at hx
      rcases List.mem_cons.mp hx with h1 | h1
      · subst h1; exact not_lt.mp ha
      · exact le_trans (not_lt.mp ha) (ht.1 x h1)

/-- On a sorted cache, everything past the `<= t` prefix is `> t`. -/
theorem sorted_dropWhile_le_gt (times : List Rat) (ht : SortedQ times) (t : Rat) :
    ∀ x ∈ times.dropWhile (fun y => decide (y ≤ t)), t < x := by
  induction times with
  | nil => intro x hx; cases hx
  | cons a rest ih =>
    rw [SortedQ, List.pairwise_cons] at ht
    intro x hx
    by_cases ha : a ≤ t
    · rw [List.dropWhile_cons, if_pos (by simpa using ha)] at hx
      exact ih ht.2 x hx
    · rw [List.dropWhile_cons, if_neg (by simpa using ha)] at hx
      rcases List.mem_cons.mp hx with h1 | h1
      · subst h1; exact not_le.mp ha
      · exact lt_of_lt_of_le (not_le.mp ha) (ht.1 x h1)

/-- Inserting at the bisect position splits the cache at the `< r` prefix. -/
theorem insertIdx_bisectLeft_eq (times : List Rat) (r : Rat) :
    times.insertIdx (bisectLeft times r) r
      = times.takeWhile (fun x => decide (x < r))
        ++ r :: times.dropWhile (fun x => decide (x < r)) := by
  have h := insertIdx_split (times.takeWhile (fun x => decide (x < r)))
    (times.dropWhile (fun x => decide (x < r))) r
  rw [List.takeWhile_append_dropWhile] at h
  exact h

/-- One `_insert_keyframes` insertion preserves cache sortedness. -/
theorem insertKF_sorted (times : List Rat) (ht : SortedQ times) (v : Rat) :
    SortedQ (insertKF times v) := by
  have hins : SortedQ (times.insertIdx (bisectLeft times (round6 v)) (round6 v)) := by
    rw [insertIdx_bisectLeft_eq]
    rw [SortedQ, List.pairwise_append]
    refine ⟨ht.sublist (List.takeWhile_sublist _), ?_, ?_⟩
    · rw [List.pairwise_cons]
      exact ⟨sorted_dropWhile_lt_ge times ht _, ht.sublist (List.dropWhile_sublist _)⟩
    · intro a ha b hb
      have ha2 : a < round6 v := by simpa using List.mem_takeWhile_imp ha
      rcases List.mem_cons.mp hb with h1 | h1
      · subst h1; exact le_of_lt ha2
      · exact le_trans (le_of_lt ha2) (sorted_dropWhile_lt_ge times ht _ b h1)
  unfold insertKF
  by_cases h : bisectLeft times (round6 v) < times.length
  · rw [dif_pos h]
    by_cases h2 : |times.get ⟨bisectLeft times (round6 v), h⟩ - round6 v| ≤ 1/1000000
    · rw [if_pos h2]; exact ht
    · rw [if_neg h2]; exact hins
  · rw [dif_neg h]; exact hins

/-- Merging probed values preserves cache sortedness. -/
theorem foldl_insertKF_sorted (vals : List Rat) :
    ∀ times, SortedQ times → SortedQ (vals.foldl insertKF times) := by
  induction vals with
  | nil => intro times ht; exact ht
  | cons v rest ih =>
    intro times ht
    exact ih _ (insertKF_sorted times ht v)

/-- `_find_prev` returns `None` exactly on an empty cache. -/
theorem findPrev_none_iff (times : List Rat) (t : Rat) :
    findPrev times t = none ↔ times = [] := by
  constructor
  · intro h
    by_contra hne
    have hnem : ¬ times.isEmpty := by simpa [List.isEmpty_iff] using hne
    rw [findPrev, if_neg hnem] at h
    by_cases hidx : 0 < bisectRight times t
    · rw [if_pos hidx] at h
      have hle : bisectRight times t ≤ times.length :=
        (List.takeWhile_sublist _).length_le
      rw [List.get?_eq_none] at h
      omega
    · rw [if_neg hidx] at h
      cases times with
      | nil => exact hne rfl
      | cons a rest => simp at h
  · intro h
    subst h
    rfl

/-- Reading an index inside the `takeWhile` prefix reads the prefix. -/
theorem get_takeWhile_front (p : Rat → Bool) (l : List Rat) (i : Nat)
    (h : i < (l.takeWhile p).length) : l.get? i = (l.takeWhile p).get? i := by
  conv_lhs => rw [show l = l.takeWhile p ++ l.dropWhile p from
    (List.takeWhile_append_dropWhile _ _).symm]
  rw [List.get?_append h]

/-- On a sorted list, every element is at most the last. -/
theorem sorted_le_getLast :
    ∀ (l : List Rat), SortedQ l → (h : l ≠ []) → ∀ x ∈ l, x ≤ l.getLast h := by
  intro l
  induction l with
  | nil => intro _ h; exact absurd rfl h
  | cons a rest ih =>
    intro ht hne x hx
    rw [SortedQ, List.pairwise_cons] at ht
    cases rest with
    | nil =>
      rcases List.mem_cons.mp hx with h1 | h1
      · subst h1; rfl
      · cases h1
    | cons b bs =>
      rw [List.getLast_cons (by simp)]
      rcases List.mem_cons.mp hx with h1 | h1
      · subst h1
        exact ht.1 _ (List.getLast_mem _)
      · exact ih ht.2 (by simp) x h1

/-- Specification of `_find_prev` on a sorted nonempty cache: it returns a
cached keyframe, and whenever some cached keyframe is `<= t` it returns the
greatest such. -/
theorem findPrev_spec (times : List Rat) (ht : SortedQ times) (t : Rat)
    (hne : times ≠ []) :
    ∃ m, findPrev times t = some m ∧ m ∈ times ∧
      ((∃ x ∈ times, x ≤ t) → m ≤ t ∧ ∀ x ∈ times, x ≤ t → x ≤ m) := by
  have hnem : ¬ times.isEmpty := by simpa [List.isEmpty_iff] using hne
  by_cases hidx : 0 < bisectRight times t
  · have hAne : times.takeWhile (fun x => decide (x ≤ t)) ≠ [] := by
      intro h0
      rw [bisectRight, h0] at hidx
      simp at hidx
    refine ⟨(times.takeWhile (fun x => decide (x ≤ t))).getLast hAne, ?_, ?_, ?_⟩
    · rw [findPrev, if_neg hnem, if_pos hidx]
      have hlt : bisectRight times t - 1
          < (times.takeWhile (fun x => decide (x ≤ t))).length := by
        have : bisectRight times t
            = (times.takeWhile (fun x => decide (x ≤ t))).length := rfl
        omega
      rw [get_takeWhile_front _ _ _ hlt, List.get?_eq_get hlt]
      congr 1
      rw [List.getLast_eq_get]
      congr 1
    · exact (List.takeWhile_sublist _).mem (List.getLast_mem hAne)
    · intro _
      constructor
      · simpa using List.mem_takeWhile_imp (List.getLast_mem hAne)
      · intro x hx hxt
        have hx2 : x ∈ times.takeWhile (fun y => decide (y ≤ t))
            ++ times.dropWhile (fun y => decide (y ≤ t)) := by
          rw [List.takeWhile_append_dropWhile]
          exact hx
        rcases List.mem_append.mp hx2 with h1 | h1
        · exact sorted_le_getLast _ (ht.sublist (List.takeWhile_sublist _)) hAne x h1
        · exact absurd hxt (not_le.mpr (sorted_dropWhile_le_gt times ht t x h1))
  · have hA0 : times.takeWhile (fun x => decide (x ≤ t)) = [] := by
      have : bisectRight times t = 0 := by omega
      exact List.length_eq_zero.mp this
    have hBall : times.dropWhile (fun x => decide (x ≤ t)) = times := by
      have h0 := List.takeWhile_append_dropWhile (fun x => decide (x ≤ t)) times
      rwa [hA0, List.nil_append] at h0
    cases times with
    | nil => exact absurd rfl hne
    | cons a rest =>
      refine ⟨a, ?_, List.mem_cons_self _ _, ?_⟩
      · rw [findPrev, if_neg hnem, if_neg hidx]
        rfl
      · intro hex
        exfalso
        obtain ⟨x, hx, hxt⟩ := hex
        have := sorted_dropWhile_le_gt (a :: rest) ht t x (by rw [hBall]; exact hx)
        exact absurd hxt (not_le.mpr this)

/-- Invariant of the expanding-window loop: sortedness is preserved and,
entered with a miss, its result is exactly the lookup in its final cache. -/
theorem kfLoop_spec (probe : Option Rat → Option Rat → List Rat) (t : Rat) :
    ∀ (fuel : Nat) (window : Rat) (e : KFEntry), SortedQ e.times →
      findPrev e.times t = none →
      SortedQ (kfLoop probe t fuel window e).2.times
      ∧ (kfLoop probe t fuel window e).1
          = findPrev (kfLoop probe t fuel window e).2.times t := by
  intro fuel
  induction fuel with
  | zero =>
    intro window e hs hnone
    exact ⟨hs, hnone.symm⟩
  | succ fuel ih =>
    intro window e hs hnone
    rw [kfLoop]
    by_cases hw : window ≤ 300
    · rw [if_pos hw]
      dsimp only
      have hs1 : SortedQ (insertKeyframes e (sortQ (probe (some (max 0 (t - window)))
          (some (max (t + 1/4) (max 0 (t - window) + 1/20)))))).times :=
        foldl_insertKF_sorted _ _ hs
      by_cases hbr : (findPrev (insertKeyframes e (sortQ (probe (some (max 0 (t - window)))
          (some (max (t + 1/4) (max 0 (t - window) + 1/20)))))).times t).isSome = true
          ∨ max 0 (t - window) ≤ 0
      · rw [if_pos hbr]
        exact ⟨hs1, rfl⟩
      · rw [if_neg hbr]
        push_neg at hbr
        have hnone1 : findPrev (insertKeyframes e (sortQ (probe (some (max 0 (t - window)))
            (some (max (t + 1/4) (max 0 (t - window) + 1/20)))))).times t = none := by
          cases hfp : findPrev (insertKeyframes e (sortQ (probe (some (max 0 (t - window)))
              (some (max (t + 1/4) (max 0 (t - window) + 1/20)))))).times t with
          | none => rfl
          | some v => exact absurd (by rw [hfp]; rfl) hbr.1
        exact ih (window * 2) _ hs1 hnone1
    · rw [if_neg hw]
      exact ⟨hs, hnone.symm⟩

theorem SortedQ_nil : SortedQ [] := List.Pairwise.nil

/-- C3 is falsified as stated: with a cache state containing (or a probe
returning) only keyframes strictly after `t`, `_find_prev` returns
`times[0] > t`, so `get_prev_keyframe_time` returns a value above `t`
instead of `t` itself.  Concretely, at `t = 5` a probe that reports the
single keyframe `5.2` (inside the `t + 0.25` lookahead) makes the call
return `5.2 > 5`. -/
theorem c3_counterexample :
    (get_prev_keyframe_time (fun _ _ => [26/5]) ⟨[], false⟩ 5).1 = 26/5
    ∧ ¬ ((get_prev_keyframe_time (fun _ _ => [26/5]) ⟨[], false⟩ 5).1 ≤ 5) := by
  have h5 : ¬ ((26:ℚ)/5 ≤ 5) := by norm_num
  have hround : round6 ((26:ℚ)/5) = 26/5 := by
    norm_num [round6, pyRoundInt, ratFloor_eq_floor]
  have hins : insertKF [] ((26:ℚ)/5) = [26/5] := by
    simp [insertKF, bisectLeft, hround]
  have hsort : sortQ [((26:ℚ)/5)] = [26/5] := by simp [sortQ]
  have hfind0 : findPrev ([] : List Rat) (5:ℚ) = none := rfl
  have hfind1 : findPrev [((26:ℚ)/5)] 5 = some (26/5) := by
    simp [findPrev, bisectRight, List.takeWhile_cons, h5]
  have hik : insertKeyframes ⟨[], false⟩ [(26:ℚ)/5] = ⟨[26/5], false⟩ := by
    simp [insertKeyframes, hins]
  have hkf : kfLoop (fun _ _ => [(26:ℚ)/5]) 5 6 10 ⟨[], false⟩
      = (some (26/5), ⟨[26/5], false⟩) := by
    rw [show (6:ℕ) = 5 + 1 from rfl, kfLoop]
    rw [if_pos (by norm_num : (10:ℚ) ≤ 300)]
    dsimp only
    rw [hsort, hik, hfind1]
    simp
  have hmain : get_prev_keyframe_time (fun _ _ => [(26:ℚ)/5]) ⟨[], false⟩ 5
      = (26/5, ⟨[26/5], false⟩) := by
    unfold get_prev_keyframe_time
    dsimp only
    rw [hfind0]
    dsimp only
    rw [hkf]
  rw [hmain]
  exact ⟨rfl, h5⟩

/-- C3 amended: on a sorted cache (the reachable-state invariant), the
returned cache stays sorted, the returned value is a cached keyframe or `t`
itself, `t` is returned whenever the final cache is empty, and — whenever
the final cache holds any keyframe at or before `t` — the returned value is
the LATEST cached keyframe `<= t`.  (The original claim's unconditional
`result <= t` fails when every known keyframe lies after `t`: `_find_prev`
then returns `times[0] > t`, as the counterexample shows.) -/
theorem c3_amended (probe : Option Rat → Option Rat → List Rat) (e : KFEntry)
    (t : Rat) (hs : SortedQ e.times) :
    SortedQ (get_prev_keyframe_time probe e t).2.times
    ∧ ((get_prev_keyframe_time probe e t).2.times = []
        → (get_prev_keyframe_time probe e t).1 = t)
    ∧ ((get_prev_keyframe_time probe e t).1 ∈ (get_prev_keyframe_time probe e t).2.times
        ∨ (get_prev_keyframe_time probe e t).1 = t)
    ∧ ((∃ x ∈ (get_prev_keyframe_time probe e t).2.times, x ≤ t) →
        (get_prev_keyframe_time probe e t).1 ≤ t
        ∧ (get_prev_keyframe_time probe e t).1 ∈ (get_prev_keyframe_time probe e t).2.times
        ∧ ∀ x ∈ (get_prev_keyframe_time probe e t).2.times, x ≤ t
            → x ≤ (get_prev_keyframe_time probe e t).1) := by
  rcases hfp : findPrev e.times t with _ | c
  · -- cache miss: the probe loop runs
    obtain ⟨hrs, hrfp⟩ := kfLoop_spec probe t 6 10 e hs hfp
    rcases hk : (kfLoop probe t 6 10 e).1 with _ | v
    · -- the loop found nothing, so its final cache is empty
      rw [hk] at hrfp
      have htimes : (kfLoop probe t 6 10 e).2.times = [] :=
        (findPrev_none_iff _ t).mp hrfp.symm
      by_cases hfsc : (kfLoop probe t 6 10 e).2.full_scan = true
      · have hmain : get_prev_keyframe_time probe e t = (t, (kfLoop probe t 6 10 e).2) := by
          unfold get_prev_keyframe_time
          simp only [hfp, hk, hfsc, Bool.not_true, Bool.false_eq_true, if_false]
        rw [hmain]
        refine ⟨hrs, fun _ => rfl, Or.inr rfl, ?_⟩
        intro hx
        obtain ⟨x, hx1, _⟩ := hx
        rw [htimes] at hx1
        cases hx1
      · have hfsc2 : (kfLoop probe t 6 10 e).2.full_scan = false := by
          cases h2 : (kfLoop probe t 6 10 e).2.full_scan
          · rfl
          · exact absurd h2 hfsc
        have hs2 : SortedQ (insertKeyframes (kfLoop probe t 6 10 e).2
            (sortQ (probe none none))).times := by
          unfold insertKeyframes
          dsimp only
          rw [htimes]
          exact foldl_insertKF_sorted _ _ SortedQ_nil
        rcases hfp3 : findPrev (insertKeyframes (kfLoop probe t 6 10 e).2
            (sortQ (probe none none))).times t with _ | w
        · have hempty : (insertKeyframes (kfLoop probe t 6 10 e).2
              (sortQ (probe none none))).times = [] :=
            (findPrev_none_iff _ t).mp hfp3
          have hmain : get_prev_keyframe_time probe e t
              = (t, { insertKeyframes (kfLoop probe t 6 10 e).2
                  (sortQ (probe none none)) with full_scan := true }) := by
            unfold get_prev_keyframe_time
            simp only [hfp, hk, hfsc2, Bool.not_false, if_true, hfp3]
          rw [hmain]
          refine ⟨hs2, fun _ => rfl, Or.inr rfl, ?_⟩
          intro hx
          obtain ⟨x, hx1, _⟩ := hx
          rw [show ({ insertKeyframes (kfLoop probe t 6 10 e).2
              (sortQ (probe none none)) with full_scan := true } : KFEntry).times
            = (insertKeyframes (kfLoop probe t 6 10 e).2
              (sortQ (probe none none))).times from rfl, hempty] at hx1
          cases hx1
        · have hne2 : (insertKeyframes (kfLoop probe t 6 10 e).2
              (sortQ (probe none none))).times ≠ [] := by
            intro h0
            rw [(findPrev_none_iff _ t).mpr h0] at hfp3
            cases hfp3
          obtain ⟨m, hm1, hm2, hm3⟩ := findPrev_spec _ hs2 t hne2
          have hw : w = m := by
            rw [hfp3] at hm1
            injection hm1
          have hmain : get_prev_keyframe_time probe e t
              = (w, { insertKeyframes (kfLoop probe t 6 10 e).2
                  (sortQ (probe none none)) with full_scan := true }) := by
            unfold get_prev_keyframe_time
            simp only [hfp, hk, hfsc2, Bool.not_false, if_true, hfp3]
          rw [hmain]
          subst hw
          refine ⟨hs2, ?_, Or.inl hm2, ?_⟩
          · intro h0
            exact absurd h0 hne2
          · intro hx
            exact ⟨(hm3 hx).1, hm2, (hm3 hx).2⟩
    · -- the loop found a keyframe in its final cache
      rw [hk] at hrfp
      have hne2 : (kfLoop probe t 6 10 e).2.times ≠ [] := by
        intro h0
        rw [(findPrev_none_iff _ t).mpr h0] at hrfp
        cases hrfp
      obtain ⟨m, hm1, hm2, hm3⟩ := findPrev_spec _ hrs t hne2
      have hv : v = m := by
        rw [← hrfp] at hm1
        injection hm1
      have hmain : get_prev_keyframe_time probe e t = (v, (kfLoop probe t 6 10 e).2) := by
        unfold get_prev_keyframe_time
        simp only [hfp, hk]
      rw [hmain]
      subst hv
      refine ⟨hrs, ?_, Or.inl hm2, ?_⟩
      · intro h0
        exact absurd h0 hne2
      · intro hx
        exact ⟨(hm3 hx).1, hm2, (hm3 hx).2⟩
  · -- cache hit: returned unchanged
    have hne : e.times ≠ [] := by
      intro h0
      rw [(findPrev_none_iff _ t).mpr h0] at hfp
      cases hfp
    obtain ⟨m, hm1, hm2, hm3⟩ := findPrev_spec e.times hs t hne
    have hc : c = m := by
      rw [hfp] at hm1
      injection hm1
    have hmain : get_prev_keyframe_time probe e t = (c, e) := by
      unfold get_prev_keyframe_time
      simp only [hfp]
    rw [hmain]
    subst hc
    refine ⟨hs, ?_, Or.inl hm2, ?_⟩
    · intro h0
      exact absurd h0 hne
    · intro hx
      exact ⟨(hm3 hx).1, hm2, (hm3 hx).2⟩

/-- Witness for `c3_amended` at a concrete input: the empty probe on an
empty cache at `t = 0`. -/
theorem c3_amended_witness :
    SortedQ (get_prev_keyframe_time (fun _ _ => []) ⟨[], false⟩ 0).2.times
    ∧ ((get_prev_keyframe_time (fun _ _ => []) ⟨[], false⟩ 0).2.times = []
        → (get_prev_keyframe_time (fun _ _ => []) ⟨[], false⟩ 0).1 = 0)
    ∧ ((get_prev_keyframe_time (fun _ _ => []) ⟨[], false⟩ 0).1
          ∈ (get_prev_keyframe_time (fun _ _ => []) ⟨[], false⟩ 0).2.times
        ∨ (get_prev_keyframe_time (fun _ _ => []) ⟨[], false⟩ 0).1 = 0)
    ∧ ((∃ x ∈ (get_prev_keyframe_time (fun _ _ => []) ⟨[], false⟩ 0).2.times, x ≤ 0) →
        (get_prev_keyframe_time (fun _ _ => []) ⟨[], false⟩ 0).1 ≤ 0
        ∧ (get_prev_keyframe_time (fun _ _ => []) ⟨[], false⟩ 0).1
            ∈ (get_prev_keyframe_time (fun _ _ => []) ⟨[], false⟩ 0).2.times
        ∧ ∀ x ∈ (get_prev_keyframe_time (fun _ _ => []) ⟨[], false⟩ 0).2.times, x ≤ 0
            → x ≤ (get_prev_keyframe_time (fun _ _ => []) ⟨[], false⟩ 0).1) :=
  c3_amended (fun _ _ => []) ⟨[], false⟩ 0 SortedQ_nil

/-! ### Heap model of the sequencing algorithms (claim C10)

Python clip lists are mutable objects: `_sequence_carousel`,
`_sequence_group_waves` and `_sequence_burst_shuffle` drain their queues
with `clips.pop(0)`, which would destroy the caller's lists were it not for
the fresh copies (`clips[:]`) made by `_clone_clip_queue`.  To state the
frame property we re-render the algorithms over an explicit store: list
values live at `Nat` addresses, a queue holds references, and the clone
allocates at fresh addresses at or above a watermark `n`. -/

section HeapModel

variable {S : Type}

/-- The store: clip-list values at `Nat` addresses. -/
abbrev Heap := Nat → List Clip

/-- In-place list mutation: overwrite the value at address `r`. -/
def hWrite (h : Heap) (r : Nat) (l : List Clip) : Heap :=
  fun x => if x = r then l else h x

/-- A `ClipQueue` whose per-source lists are heap references. -/
abbrev RefQueue (S : Type) := List (S × Nat)

/-- The queue value a reference queue denotes. -/
def readQueue (h : Heap) (q : RefQueue S) : ClipQueue S :=
  q.map (fun e => (e.1, h e.2))

/-- `_clone_clip_queue` in the heap model: copy each nonempty list to a
fresh address (`n`, `n+1`, ...) and reference the copies; the originals are
never referenced again.  Returns the clone queue, the extended heap, and
the next free address. -/
def cloneH : Heap → RefQueue S → Nat → RefQueue S × Heap × Nat
  | h, [], n => ([], h, n)
  | h, (s, r) :: rest, n =>
    if (h r).isEmpty then cloneH h rest n
    else
      let p := cloneH (hWrite h n (h r)) rest (n + 1)
      ((s, n) :: p.1, p.2.1, p.2.2)

/-- One carousel pass over the reference queue: pop each referenced list's
head in place, dropping references to lists that are or become empty. -/
def heapSeqRound : Heap → RefQueue S → ClipSeq S × RefQueue S × Heap
  | h, [] => ([], [], h)
  | h, (s, r) :: rest =>
    match h r with
    | [] => heapSeqRound h rest
    | c :: cs =>
      let p := heapSeqRound (hWrite h r cs) rest
      ((s, c) :: p.1,
        if cs.isEmpty then p.2.1 else (s, r) :: p.2.1,
        p.2.2)

/-- The drain measure in the heap model: referenced clips plus one per live
reference. -/
def heapMeasure (h : Heap) (q : RefQueue S) : Nat :=
  (q.map (fun e => (h e.2).length + 1)).sum

theorem heapMeasure_cons (h : Heap) (e : S × Nat) (q : RefQueue S) :
    heapMeasure h (e :: q) = (h e.2).length + 1 + heapMeasure h q := by
  simp [heapMeasure]

/-- Pointwise-shrinking heaps shrink the measure. -/
theorem heapMeasure_mono (h1 h2 : Heap) (hm : ∀ x, (h2 x).length ≤ (h1 x).length)
    (q : RefQueue S) : heapMeasure h2 q ≤ heapMeasure h1 q := by
  induction q with
  | nil => exact le_rfl
  | cons e rest ih =>
    rw [heapMeasure_cons, heapMeasure_cons]
    have := hm e.2
    omega

/-- A carousel pass only ever writes tails: every store cell shrinks. -/
theorem heapSeqRound_shrinks :
    ∀ (q : RefQueue S) (h : Heap) (x : Nat),
      ((heapSeqRound h q).2.2 x).length ≤ (h x).length := by
  intro q
  induction q with
  | nil => intro h x; exact le_rfl
  | cons e rest ih =>
    obtain ⟨s, r⟩ := e
    intro h x
    rcases hm : h r with _ | ⟨c, cs⟩
    · have heq : heapSeqRound h ((s, r) :: rest) = heapSeqRound h rest := by
        simp only [heapSeqRound, hm]
      rw [heq]
      exact ih h x
    · have heq : (heapSeqRound h ((s, r) :: rest)).2.2
          = (heapSeqRound (hWrite h r cs) rest).2.2 := by
        simp only [heapSeqRound, hm]
      rw [heq]
      refine le_trans (ih (hWrite h r cs) x) ?_
      unfold hWrite
      by_cases hx : x = r
      · rw [if_pos hx, hx, hm]
        simp
      · rw [if_neg hx]

/-- A carousel pass never increases the drain measure, and strictly
decreases it on a nonempty reference queue. -/
theorem heapSeqRound_measure :
    ∀ (q : RefQueue S) (h : Heap),
      heapMeasure (heapSeqRound h q).2.2 (heapSeqRound h q).2.1 ≤ heapMeasure h q
      ∧ (q ≠ [] →
          heapMeasure (heapSeqRound h q).2.2 (heapSeqRound h q).2.1 < heapMeasure h q) := by
  intro q
  induction q with
  | nil => exact fun h => ⟨le_rfl, fun hq => absurd rfl hq⟩
  | cons e rest ih =>
    obtain ⟨s, r⟩ := e
    intro h
    rcases hm : h r with _ | ⟨c, cs⟩
    · have heq : heapSeqRound h ((s, r) :: rest) = heapSeqRound h rest := by
        simp only [heapSeqRound, hm]
      rw [heq, heapMeasure_cons]
      have h1 := (ih h).1
      exact ⟨by omega, fun _ => by omega⟩
    · have heq2 : (heapSeqRound h ((s, r) :: rest)).2.2
          = (heapSeqRound (hWrite h r cs) rest).2.2 := by
        simp only [heapSeqRound, hm]
      have heq1 : (heapSeqRound h ((s, r) :: rest)).2.1
          = if cs.isEmpty then (heapSeqRound (hWrite h r cs) rest).2.1
            else (s, r) :: (heapSeqRound (hWrite h r cs) rest).2.1 := by
        simp only [heapSeqRound, hm]
      have hw_le : ∀ x, ((hWrite h r cs) x).length ≤ (h x).length := by
        intro x
        unfold hWrite
        by_cases hx : x = r
        · rw [if_pos hx, hx, hm]
          simp
        · rw [if_neg hx]
      have hih := (ih (hWrite h r cs)).1
      have hmono := heapMeasure_mono h (hWrite h r cs) hw_le rest
      have hlenr : (h r).length = cs.length + 1 := by rw [hm]; rfl
      rw [heq1, heq2, heapMeasure_cons]
      dsimp only
      by_cases hcs : cs.isEmpty
      · rw [if_pos hcs]
        exact ⟨by omega, fun _ => by omega⟩
      · rw [if_neg hcs, heapMeasure_cons]
        dsimp only
        have hshr : ((heapSeqRound (hWrite h r cs) rest).2.2 r).length ≤ cs.length := by
          refine le_trans (heapSeqRound_shrinks rest (hWrite h r cs) r) ?_
          unfold hWrite
          rw [if_pos rfl]
        exact ⟨by omega, fun _ => by omega⟩

/-- The `while queues:` drain of `_sequence_carousel` in the heap model. -/
def heapSeqRounds (h : Heap) (q : RefQueue S) : ClipSeq S × Heap :=
  if hq : q.isEmpty then ([], h)
  else
    let p := heapSeqRound h q
    let rest := heapSeqRounds p.2.2 p.2.1
    (p.1 ++ rest.1, rest.2)
  termination_by heapMeasure h q
  decreasing_by
    exact (heapSeqRound_measure q h).2 (by simpa [List.isEmpty_iff] using hq)

end HeapModel

section HeapFrame

variable {S : Type}

/-- A carousel pass keeps only references it was given. -/
theorem heapSeqRound_refs :
    ∀ (q : RefQueue S) (h : Heap) (e : S × Nat),
      e ∈ (heapSeqRound h q).2.1 → e ∈ q := by
  intro q
  induction q with
  | nil => intro h e he; exact absurd he (by simp [heapSeqRound])
  | cons e0 rest ih =>
    obtain ⟨s, r⟩ := e0
    intro h e he
    rcases hm : h r with _ | ⟨c, cs⟩
    · have heq : heapSeqRound h ((s, r) :: rest) = heapSeqRound h rest := by
        simp only [heapSeqRound, hm]
      rw [heq] at he
      exact List.mem_cons_of_mem _ (ih h e he)
    · have heq : (heapSeqRound h ((s, r) :: rest)).2.1
          = if cs.isEmpty then (heapSeqRound (hWrite h r cs) rest).2.1
            else (s, r) :: (heapSeqRound (hWrite h r cs) rest).2.1 := by
        simp only [heapSeqRound, hm]
      rw [heq] at he
      by_cases hcs : cs.isEmpty
      · rw [if_pos hcs] at he
        exact List.mem_cons_of_mem _ (ih _ e he)
      · rw [if_neg hcs] at he
        rcases List.mem_cons.mp he with h1 | h1
        · exact h1 ▸ List.mem_cons_self _ _
        · exact List.mem_cons_of_mem _ (ih _ e h1)

/-- A carousel pass writes only at the references it was given: below any
watermark under all of them, the store is untouched. -/
theorem heapSeqRound_frame (n : Nat) :
    ∀ (q : RefQueue S) (h : Heap), (∀ e ∈ q, n ≤ e.2) →
      ∀ x, x < n → (heapSeqRound h q).2.2 x = h x := by
  intro q
  induction q with
  | nil => intro h _ x _; rfl
  | cons e0 rest ih =>
    obtain ⟨s, r⟩ := e0
    intro h href x hx
    rcases hm : h r with _ | ⟨c, cs⟩
    · have heq : heapSeqRound h ((s, r) :: rest) = heapSeqRound h rest := by
        simp only [heapSeqRound, hm]
      rw [heq]
      exact ih h (fun e he => href e (List.mem_cons_of_mem _ he)) x hx
    · have heq : (heapSeqRound h ((s, r) :: rest)).2.2
          = (heapSeqRound (hWrite h r cs) rest).2.2 := by
        simp only [heapSeqRound, hm]
      rw [heq]
      have hr : n ≤ r := href (s, r) (List.mem_cons_self _ _)
      rw [ih (hWrite h r cs) (fun e he => href e (List.mem_cons_of_mem _ he)) x hx]
      unfold hWrite
      rw [if_neg (by omega)]

/-- The full drain writes only at the references it was given. -/
theorem heapSeqRounds_frame (n : Nat) :
    ∀ (m : Nat) (h : Heap) (q : RefQueue S), heapMeasure h q ≤ m →
      (∀ e ∈ q, n ≤ e.2) → ∀ x, x < n → (heapSeqRounds h q).2 x = h x := by
  intro m
  induction m with
  | zero =>
    intro h q hm href x hx
    cases q with
    | nil => rw [heapSeqRounds]; rfl
    | cons e rest =>
      rw [heapMeasure_cons] at hm
      omega
  | succ m ih =>
    intro h q hm href x hx
    rw [heapSeqRounds]
    by_cases hq : q.isEmpty
    · rw [dif_pos hq]
    · rw [dif_neg hq]
      dsimp only
      have hne : q ≠ [] := by simpa [List.isEmpty_iff] using hq
      have hlt := (heapSeqRound_measure q h).2 hne
      have hfr1 := heapSeqRound_frame n q h href x hx
      have href2 : ∀ e ∈ (heapSeqRound h q).2.1, n ≤ e.2 :=
        fun e he => href e (heapSeqRound_refs q h e he)
      rw [ih (heapSeqRound h q).2.2 (heapSeqRound h q).2.1 (by omega) href2 x hx]
      exact hfr1

/-- The clone touches no address below its watermark and references only
addresses at or above it. -/
theorem cloneH_spec :
    ∀ (pf : RefQueue S) (h : Heap) (n : Nat),
      (∀ x, x < n → (cloneH h pf n).2.1 x = h x)
      ∧ (∀ e ∈ (cloneH h pf n).1, n ≤ e.2) := by
  intro pf
  induction pf with
  | nil => intro h n; exact ⟨fun x _ => rfl, by simp [cloneH]⟩
  | cons e0 rest ih =>
    obtain ⟨s, r⟩ := e0
    intro h n
    by_cases hE : (h r).isEmpty
    · have heq : cloneH h ((s, r) :: rest) n = cloneH h rest n := by
        simp only [cloneH, if_pos hE]
      rw [heq]
      exact ih h n
    · have heq1 : (cloneH h ((s, r) :: rest) n).2.1
          = (cloneH (hWrite h n (h r)) rest (n + 1)).2.1 := by
        simp only [cloneH, if_neg hE]
      have heq2 : (cloneH h ((s, r) :: rest) n).1
          = (s, n) :: (cloneH (hWrite h n (h r)) rest (n + 1)).1 := by
        simp only [cloneH, if_neg hE]
      obtain ⟨ih1, ih2⟩ := ih (hWrite h n (h r)) (n + 1)
      constructor
      · intro x hx
        rw [heq1, ih1 x (by omega)]
        unfold hWrite
        rw [if_neg (by omega)]
      · intro e he
        rw [heq2] at he
        rcases List.mem_cons.mp he with h1 | h1
        · rw [h1]
        · have := ih2 e h1
          omega

/-- The wave loop of `_sequence_group_waves` in the heap model: drain each
group of references in turn, threading the store. -/
def heapWavesGo : List (RefQueue S) → Heap → ClipSeq S × Heap
  | [], h => ([], h)
  | g :: gs, h =>
    let p := heapSeqRounds h g
    let q := heapWavesGo gs p.2
    (p.1 ++ q.1, q.2)

theorem heapWavesGo_frame (n : Nat) :
    ∀ (gs : List (RefQueue S)) (h : Heap),
      (∀ g ∈ gs, ∀ e ∈ g, n ≤ e.2) → ∀ x, x < n → (heapWavesGo gs h).2 x = h x := by
  intro gs
  induction gs with
  | nil => intro h _ x _; rfl
  | cons g rest ih =>
    intro h href x hx
    show (heapWavesGo rest (heapSeqRounds h g).2).2 x = h x
    rw [ih (heapSeqRounds h g).2 (fun g2 hg2 => href g2 (List.mem_cons_of_mem _ hg2)) x hx]
    exact heapSeqRounds_frame n (heapMeasure h g) h g le_rfl
      (href g (List.mem_cons_self _ _)) x hx

end HeapFrame

section HeapBursts

variable {S : Type}

/-- Referenced clip count, the burst loop's `total`. -/
def heapCount (h : Heap) (q : RefQueue S) : Nat :=
  (q.map (fun e => (h e.2).length)).sum

theorem heapCount_cons (h : Heap) (e : S × Nat) (q : RefQueue S) :
    heapCount h (e :: q) = (h e.2).length + heapCount h q := by
  simp [heapCount]

theorem heapCount_append (h : Heap) (q1 q2 : RefQueue S) :
    heapCount h (q1 ++ q2) = heapCount h q1 + heapCount h q2 := by
  simp [heapCount]

/-- Pointwise-shrinking heaps shrink the referenced clip count. -/
theorem heapCount_mono (h1 h2 : Heap) (hm : ∀ x, (h2 x).length ≤ (h1 x).length)
    (q : RefQueue S) : heapCount h2 q ≤ heapCount h1 q := by
  induction q with
  | nil => exact le_rfl
  | cons e rest ih =>
    rw [heapCount_cons, heapCount_cons]
    have := hm e.2
    omega

/-- A queue referencing a non-drained list has positive clip count. -/
theorem heapCount_pos_of_not_all (h : Heap) (q : RefQueue S)
    (hq : ¬ q.all (fun e => (h e.2).isEmpty)) : 0 < heapCount h q := by
  rw [List.all_eq_true] at hq
  push_neg at hq
  obtain ⟨e, he, hne⟩ := hq
  have h1 : (h e.2).length ≤ heapCount h q :=
    List.single_le_sum (fun x _ => Nat.zero_le x) _ (List.mem_map_of_mem _ he)
  have h2 : h e.2 ≠ [] := by simpa [List.isEmpty_iff] using hne
  have := List.length_pos.mpr h2
  omega

/-- Popping `k >= 1` clips in place at the reference held at position `j`
(and removing the reference once its list empties) strictly decreases the
referenced clip count. -/
theorem heapCount_step_lt (h : Heap) (q : RefQueue S) (j : Nat) (s : S) (r : Nat)
    (hj : q.get? j = some (s, r)) (k : Nat) (hk : 1 ≤ k) (hkl : k ≤ (h r).length) :
    heapCount (hWrite h r ((h r).drop k))
        (if ((h r).drop k).isEmpty then q.eraseIdx j else q)
      < heapCount h q := by
  obtain ⟨hlen, hget⟩ := List.get?_eq_some.mp hj
  have hq : q.take j ++ (s, r) :: q.drop (j + 1) = q := by
    rw [← hget, List.get_cons_drop, List.take_append_drop]
  have hshr : ∀ x, ((hWrite h r ((h r).drop k)) x).length ≤ (h x).length := by
    intro x
    unfold hWrite
    by_cases hx : x = r
    · rw [if_pos hx, hx]
      simp only [List.length_drop]
      omega
    · rw [if_neg hx]
  have hmono1 := heapCount_mono h (hWrite h r ((h r).drop k)) hshr (q.take j)
  have hmono2 := heapCount_mono h (hWrite h r ((h r).drop k)) hshr (q.drop (j + 1))
  have hcq : heapCount h q
      = heapCount h (q.take j) + ((h r).length + heapCount h (q.drop (j + 1))) := by
    conv_lhs => rw [← hq]
    rw [heapCount_append, heapCount_cons]
  have hwr : ((hWrite h r ((h r).drop k)) r).length = (h r).length - k := by
    unfold hWrite
    rw [if_pos rfl]
    simp
  by_cases hd : ((h r).drop k).isEmpty
  · rw [if_pos hd, List.eraseIdx_eq_take_drop_succ, heapCount_append, hcq]
    omega
  · rw [if_neg hd]
    have hcq2 : heapCount (hWrite h r ((h r).drop k)) q
        = heapCount (hWrite h r ((h r).drop k)) (q.take j)
          + (((hWrite h r ((h r).drop k)) r).length
            + heapCount (hWrite h r ((h r).drop k)) (q.drop (j + 1))) := by
      conv_lhs => rw [← hq]
      rw [heapCount_append, heapCount_cons]
    rw [hcq2, hcq, hwr]
    omega

/-- The main loop of `_sequence_burst_shuffle` in the heap model: choose a
reference weighted by its list's remaining length, pop a burst of its next
clips in place, remove the reference once its list empties.  Mirrors
`burstsGo`, with the dictionary's lists now living in the store. -/
def heapBurstsGo [Inhabited S] : Heap → RefQueue S → List Nat → ClipSeq S × Heap
  | h, q, ds =>
    if hq : q.all (fun e => (h e.2).isEmpty) then ([], h)
    else
      let pick : Int := 1 + (ds.headD 0 : Int) % (max 1 (heapCount h q : Int))
      let j := choosePos (fun e => (h e.2).length) q pick
      let s := ((q.get? j).getD default).1
      let r := ((q.get? j).getD default).2
      let l := h r
      let burst := 1 + (ds.tail.headD 0 : Int) % (max 1 (min 3 (l.length : Int)))
      let k := min burst.toNat l.length
      let p := heapBurstsGo (hWrite h r (l.drop k))
        (if (l.drop k).isEmpty then q.eraseIdx j else q) ds.tail.tail
      ((l.take k).map (fun c => (s, c)) ++ p.1, p.2)
  termination_by h q ds => heapCount h q
  decreasing_by
    have htot : 0 < heapCount h q := heapCount_pos_of_not_all h q hq
    have hp1 : (1 : Int) ≤ 1 + (ds.headD 0 : Int) % (max 1 (heapCount h q : Int)) := by
      have := Int.emod_nonneg (ds.headD 0 : Int)
        (by omega : (max 1 (heapCount h q : Int)) ≠ 0)
      omega
    have hp2 : 1 + (ds.headD 0 : Int) % (max 1 (heapCount h q : Int))
        ≤ (heapCount h q : Int) := by
      have h1 := Int.emod_lt_of_pos (ds.headD 0 : Int)
        (by omega : (0 : Int) < max 1 (heapCount h q : Int))
      omega
    have hp2' : 1 + (ds.headD 0 : Int) % (max 1 (heapCount h q : Int))
        ≤ ((((q.map (fun e : S × Nat => (h e.2).length)).sum : Nat)) : Int) := hp2
    obtain ⟨e1, he1, hw1⟩ :=
      choosePos_spec (fun e : S × Nat => (h e.2).length) q _ hp1 hp2'
    rw [he1]
    simp only [Option.getD_some]
    have hmod1 := Int.emod_nonneg (ds.tail.headD 0 : Int)
      (by omega : (max 1 (min 3 ((h e1.2).length : Int))) ≠ 0)
    refine heapCount_step_lt h q _ e1.1 e1.2 (by rw [he1]) _ ?_ ?_
    · omega
    · omega

/-- The burst loop writes only at the references it was given. -/
theorem heapBurstsGo_frame [Inhabited S] (n : Nat) :
    ∀ (m : Nat) (h : Heap) (q : RefQueue S) (ds : List Nat), heapCount h q ≤ m →
      (∀ e ∈ q, n ≤ e.2) → ∀ x, x < n → (heapBurstsGo h q ds).2 x = h x := by
  intro m
  induction m with
  | zero =>
    intro h q ds hm href x hx
    have hq : q.all (fun e => (h e.2).isEmpty) := by
      by_contra hq
      have := heapCount_pos_of_not_all h q hq
      omega
    rw [heapBurstsGo, dif_pos hq]
  | succ m ih =>
    intro h q ds hm href x hx
    by_cases hq : q.all (fun e => (h e.2).isEmpty)
    · rw [heapBurstsGo, dif_pos hq]
    · rw [heapBurstsGo, dif_neg hq]
      dsimp only
      have htot : 0 < heapCount h q := heapCount_pos_of_not_all h q hq
      have hp1 : (1 : Int) ≤ 1 + (ds.headD 0 : Int) % (max 1 (heapCount h q : Int)) := by
        have := Int.emod_nonneg (ds.headD 0 : Int)
          (by omega : (max 1 (heapCount h q : Int)) ≠ 0)
        omega
      have hp2 : 1 + (ds.headD 0 : Int) % (max 1 (heapCount h q : Int))
          ≤ (heapCount h q : Int) := by
        have h1 := Int.emod_lt_of_pos (ds.headD 0 : Int)
          (by omega : (0 : Int) < max 1 (heapCount h q : Int))
        omega
      have hp2' : 1 + (ds.headD 0 : Int) % (max 1 (heapCount h q : Int))
          ≤ ((((q.map (fun e : S × Nat => (h e.2).length)).sum : Nat)) : Int) := hp2
      obtain ⟨e1, he1, hw1⟩ :=
        choosePos_spec (fun e : S × Nat => (h e.2).length) q _ hp1 hp2'
      rw [he1]
      simp only [Option.getD_some]
      have hmod1 := Int.emod_nonneg (ds.tail.headD 0 : Int)
        (by omega : (max 1 (min 3 ((h e1.2).length : Int))) ≠ 0)
      have hstep := heapCount_step_lt h q
        (choosePos (fun e => (h e.2).length) q
          (1 + (ds.headD 0 : Int) % (max 1 (heapCount h q : Int))))
        e1.1 e1.2 (by rw [he1])
        (min (1 + (ds.tail.headD 0 : Int) % (max 1 (min 3 ((h e1.2).length : Int)))).toNat
          (h e1.2).length)
        (by omega) (by omega)
      have hr : n ≤ e1.2 := href e1 (List.get?_mem he1)
      have href2 : ∀ e ∈ (if (((h e1.2).drop
          (min (1 + (ds.tail.headD 0 : Int)
            % (max 1 (min 3 ((h e1.2).length : Int)))).toNat
            (h e1.2).length)).isEmpty)
          then q.eraseIdx (choosePos (fun e => (h e.2).length) q
            (1 + (ds.headD 0 : Int) % (max 1 (heapCount h q : Int))))
          else q), n ≤ e.2 := by
        intro e he
        by_cases hd : (((h e1.2).drop
            (min (1 + (ds.tail.headD 0 : Int)
              % (max 1 (min 3 ((h e1.2).length : Int)))).toNat
              (h e1.2).length)).isEmpty)
        · rw [if_pos hd] at he
          exact href e ((List.eraseIdx_sublist _ _).mem he)
        · rw [if_neg hd] at he
          exact href e he
      rw [ih _ _ ds.tail.tail (by omega) href2 x hx]
      unfold hWrite
      rw [if_neg (by omega)]

end HeapBursts

section HeapAlgorithms

variable {S : Type}

/-- `_sequence_carousel` over the store: clone at watermark `n`, drain the
clone. -/
def heap_sequence_carousel (h : Heap) (pf : RefQueue S) (n : Nat) : ClipSeq S × Heap :=
  heapSeqRounds (cloneH h pf n).2.1 (cloneH h pf n).1

/-- `_sequence_group_waves` over the store: clone, shuffle the clone's
references, split into waves, drain each wave. -/
def heap_sequence_group_waves (h : Heap) (pf : RefQueue S) (n : Nat)
    (ds1 ds2 : List Nat) : ClipSeq S × Heap :=
  heapWavesGo (groupSplit (shuffleDraws (cloneH h pf n).1 ds1) ds2) (cloneH h pf n).2.1

/-- `_sequence_burst_shuffle` over the store: clone, run the burst loop on
the clone. -/
def heap_sequence_burst_shuffle [Inhabited S] (h : Heap) (pf : RefQueue S) (n : Nat)
    (ds : List Nat) : ClipSeq S × Heap :=
  heapBurstsGo (cloneH h pf n).2.1 (cloneH h pf n).1 ds

/-- `_sequence_poi` over the store: it only reads (`sorted` copies), so the
store is returned unchanged — there is no store-mutating statement to
translate. -/
def heap_sequence_poi (h : Heap) (pf : RefQueue S) : ClipSeq S × Heap :=
  ((readQueue h pf).flatMap (fun e => (sortClips e.2).map (fun c => (e.1, c))), h)

/-- `_sequence_strata` over the store: identical body to `_sequence_poi`. -/
def heap_sequence_strata (h : Heap) (pf : RefQueue S) : ClipSeq S × Heap :=
  ((readQueue h pf).flatMap (fun e => (sortClips e.2).map (fun c => (e.1, c))), h)

/-- A store change below the watermark is invisible to a queue whose
references lie below it. -/
theorem readQueue_eq_of_frame (h h2 : Heap) (n : Nat)
    (hfr : ∀ x, x < n → h2 x = h x) :
    ∀ (pf : RefQueue S), (∀ e ∈ pf, e.2 < n) → readQueue h2 pf = readQueue h pf := by
  intro pf
  induction pf with
  | nil => intro _; rfl
  | cons e rest ih =>
    intro href
    show (e.1, h2 e.2) :: readQueue h2 rest = (e.1, h e.2) :: readQueue h rest
    rw [hfr e.2 (href e (List.mem_cons_self _ _)),
      ih (fun e2 he2 => href e2 (List.mem_cons_of_mem _ he2))]

end HeapAlgorithms

/-- Claim C10: every sequencing algorithm leaves its input `ClipQueue`
unchanged.  In the store model, with the input's references below the
allocation watermark `n`, each algorithm's final store agrees with the
initial one at every address below `n` — carousel, waves and bursts mutate
only the fresh copies made by `_clone_clip_queue`, and poi/strata never
write — so the original mapping still reads back exactly its original
per-source clip lists. -/
theorem c10_sequencing_frame {S : Type} [Inhabited S] (h : Heap) (pf : RefQueue S)
    (n : Nat) (ds ds1 ds2 : List Nat) (hfresh : ∀ e ∈ pf, e.2 < n) :
    ((∀ x, x < n → (heap_sequence_carousel h pf n).2 x = h x)
      ∧ readQueue (heap_sequence_carousel h pf n).2 pf = readQueue h pf)
    ∧ ((∀ x, x < n → (heap_sequence_group_waves h pf n ds1 ds2).2 x = h x)
      ∧ readQueue (heap_sequence_group_waves h pf n ds1 ds2).2 pf = readQueue h pf)
    ∧ ((∀ x, x < n → (heap_sequence_burst_shuffle h pf n ds).2 x = h x)
      ∧ readQueue (heap_sequence_burst_shuffle h pf n ds).2 pf = readQueue h pf)
    ∧ (heap_sequence_poi h pf).2 = h
    ∧ (heap_sequence_strata h pf).2 = h := by
  obtain ⟨hc1, hc2⟩ := cloneH_spec (S := S) pf h n
  have hcar : ∀ x, x < n → (heap_sequence_carousel h pf n).2 x = h x := by
    intro x hx
    unfold heap_sequence_carousel
    rw [heapSeqRounds_frame n (heapMeasure (cloneH h pf n).2.1 (cloneH h pf n).1)
      _ _ le_rfl hc2 x hx]
    exact hc1 x hx
  have hwav : ∀ x, x < n → (heap_sequence_group_waves h pf n ds1 ds2).2 x = h x := by
    intro x hx
    unfold heap_sequence_group_waves
    have hgs : ∀ g ∈ groupSplit (shuffleDraws (cloneH h pf n).1 ds1) ds2,
        ∀ e ∈ g, n ≤ e.2 := by
      intro g hg e he
      have h1 : e ∈ (groupSplit (shuffleDraws (cloneH h pf n).1 ds1) ds2).flatten :=
        List.mem_flatten.mpr ⟨g, hg, he⟩
      rw [groupSplit_flatten] at h1
      exact hc2 e ((shuffleDraws_perm _ _).subset h1)
    rw [heapWavesGo_frame n _ _ hgs x hx]
    exact hc1 x hx
  have hbur : ∀ x, x < n → (heap_sequence_burst_shuffle h pf n ds).2 x = h x := by
    intro x hx
    unfold heap_sequence_burst_shuffle
    rw [heapBurstsGo_frame n (heapCount (cloneH h pf n).2.1 (cloneH h pf n).1)
      _ _ ds le_rfl hc2 x hx]
    exact hc1 x hx
  exact ⟨⟨hcar, readQueue_eq_of_frame h _ n hcar pf hfresh⟩,
    ⟨hwav, readQueue_eq_of_frame h _ n hwav pf hfresh⟩,
    ⟨hbur, readQueue_eq_of_frame h _ n hbur pf hfresh⟩,
    rfl, rfl⟩

/-- Witness for `c10_sequencing_frame` at a concrete input: one source at
address `0` holding one clip, watermark `1`. -/
theorem c10_sequencing_frame_witness :
    ((∀ x, x < 1 →
        (heap_sequence_carousel (fun _ => [((0:Int), (5:Int))]) [((0:Int), 0)] 1).2 x
          = (fun _ => [((0:Int), (5:Int))] : Heap) x)
      ∧ readQueue (heap_sequence_carousel (fun _ => [((0:Int), (5:Int))]) [((0:Int), 0)] 1).2
            [((0:Int), 0)]
          = readQueue (fun _ => [((0:Int), (5:Int))]) [((0:Int), 0)])
    ∧ ((∀ x, x < 1 →
        (heap_sequence_group_waves (fun _ => [((0:Int), (5:Int))]) [((0:Int), 0)] 1 [] []).2 x
          = (fun _ => [((0:Int), (5:Int))] : Heap) x)
      ∧ readQueue (heap_sequence_group_waves (fun _ => [((0:Int), (5:Int))])
            [((0:Int), 0)] 1 [] []).2 [((0:Int), 0)]
          = readQueue (fun _ => [((0:Int), (5:Int))]) [((0:Int), 0)])
    ∧ ((∀ x, x < 1 →
        (heap_sequence_burst_shuffle (fun _ => [((0:Int), (5:Int))]) [((0:Int), 0)] 1 []).2 x
          = (fun _ => [((0:Int), (5:Int))] : Heap) x)
      ∧ readQueue (heap_sequence_burst_shuffle (fun _ => [((0:Int), (5:Int))])
            [((0:Int), 0)] 1 []).2 [((0:Int), 0)]
          = readQueue (fun _ => [((0:Int), (5:Int))]) [((0:Int), 0)])
    ∧ (heap_sequence_poi (fun _ => [((0:Int), (5:Int))]) [((0:Int), 0)]).2
        = (fun _ => [((0:Int), (5:Int))])
    ∧ (heap_sequence_strata (fun _ => [((0:Int), (5:Int))]) [((0:Int), 0)]).2
        = (fun _ => [((0:Int), (5:Int))]) :=
  c10_sequencing_frame (fun _ => [((0:Int), (5:Int))]) [((0:Int), 0)] 1 [] [] []
    (by simp)
